import Mathlib

/-!
# Jormungandr: the circular job queue and the admission pass

A shallow embedding of `Src/queue.c` and of the scheduling functions of
`Src/server.c` (`constructEnvval`, `runJob`, `runJobs`).

Conventions of the embedding.

* `size_t` values are natural numbers below `SIZE_MOD = 2 ^ 64`; every C
  operation that can wrap is written with `addSz`, `subSz` or `mulSz`.
* A heap block is a list of cells; a cell of the job array is `none` while it
  still holds the indeterminate value `malloc` left there and `some j` once a
  job was stored. The `NULL` pointer is the `none` of `Option (List _)`.
* An operation that reads or writes outside its block (undefined behaviour in
  C) returns `none`.
-/

namespace Jormungandr

/-! ## `size_t` arithmetic -/

/-- The number of values of a `size_t` (64 bits): `2 ^ 64`. -/
def SIZE_MOD : Nat := 18446744073709551616

/-- Unsigned addition `a + b` on `size_t`. -/
def addSz (a b : Nat) : Nat := (a + b) % SIZE_MOD

/-- Unsigned subtraction `a - b` on `size_t` (wraps below zero). -/
def subSz (a b : Nat) : Nat := (a + (SIZE_MOD - b % SIZE_MOD)) % SIZE_MOD

/-- Unsigned multiplication `a * b` on `size_t`. -/
def mulSz (a b : Nat) : Nat := (a * b) % SIZE_MOD

/-! ## `Src/queue.c` -/

/-- The constant `QUEUE_MIN_SIZE`. -/
def QUEUE_MIN_SIZE : Nat := 128

/-- The static variables of `queue.c`: `jobs`, `arr_len`, `old`, `new`. -/
structure Queue (α : Type) where
  jobs : Option (List (Option α))
  arr_len : Nat
  old : Nat
  new : Nat

/-- The state the static initialisers give: `jobs = NULL`, all indices zero. -/
def Queue.fresh {α : Type} : Queue α :=
  { jobs := none, arr_len := 0, old := 0, new := 0 }

/-- The cells a pointer gives access to; `NULL` gives access to none. -/
def blockOf {α : Type} (p : Option (List (Option α))) : List (Option α) :=
  match p with
  | none => []
  | some b => b

/-- The block `malloc(sizeof(struct job) * n)` returns: `n` indeterminate cells.
Allocation failure is not modelled. -/
def mallocJobs {α : Type} (n : Nat) : List (Option α) := List.replicate n none

/-- The function `queueCurCapacity`. -/
def queueCurCapacity {α : Type} (q : Queue α) : Nat := subSz q.arr_len 2

/-- The function `queueFree`. -/
def queueFree {α : Type} (_q : Queue α) : Queue α :=
  { jobs := none, arr_len := 0, old := 1, new := 1 }

/-- The function `queueInitialize`. -/
def queueInitialize {α : Type} (q : Queue α) : Queue α :=
  match q.jobs with
  | none =>
    { jobs := some (mallocJobs QUEUE_MIN_SIZE), arr_len := QUEUE_MIN_SIZE, old := 1, new := 1 }
  | some _ => q

/-- The function `index`. -/
def index {α : Type} (q : Queue α) (pseudoindex : Nat) : Nat :=
  if pseudoindex = 0 then subSz q.arr_len 1
  else if pseudoindex = q.arr_len then 1
  else pseudoindex

/-- The `for` loop of `queueGrow`, started at `x` and `newNew`, copying from
`arrOld` into `jobs`. `q` is the state before the call (the loop reads
`q.new` and, through `index`, `q.arr_len`). The first argument bounds the
number of iterations; when it is used up with `x != new` the result is `none`. -/
def growLoop {α : Type} (q : Queue α) (arrOld : List (Option α)) :
    Nat → Nat → Nat → List (Option α) → Option (List (Option α) × Nat)
  | 0, x, newNew, jobs => if x = q.new then some (jobs, newNew) else none
  | fuel + 1, x, newNew, jobs =>
    if x = q.new then some (jobs, newNew)
    else
      match arrOld[x]? with
      | none => none
      | some cell =>
        if newNew < jobs.length then
          growLoop q arrOld fuel (index q (addSz x 1)) (addSz newNew 1) (jobs.set newNew cell)
        else none

/-- The function `queueGrow`. The loop visits every valid index at most once,
so `arr_len` iterations are enough whenever it terminates at all. -/
def queueGrow {α : Type} (q : Queue α) : Option (Queue α) :=
  match growLoop q (blockOf q.jobs) q.arr_len q.old 1 (mallocJobs (q.arr_len * 2)) with
  | none => none
  | some (jobs, newNew) =>
    some { jobs := some jobs, arr_len := mulSz q.arr_len 2, old := 1, new := newNew }

/-- The function `queueEnqueue`. -/
def queueEnqueue {α : Type} (q : Queue α) (job : α) : Option (Queue α) :=
  let q1 := queueInitialize q
  match (if q1.old = index q1 (addSz q1.new 1) then queueGrow q1 else some q1) with
  | none => none
  | some q2 =>
    if q2.new < (blockOf q2.jobs).length then
      some { jobs := some ((blockOf q2.jobs).set q2.new (some job)),
             arr_len := q2.arr_len,
             old := q2.old,
             new := index q2 (addSz q2.new 1) }
    else none

/-- The function `queueSize`. -/
def queueSize {α : Type} (q : Queue α) : Nat :=
  if q.old ≤ q.new then subSz q.new q.old
  else subSz (subSz q.arr_len 1) (subSz q.old q.new)

/-- The function `queueDequeue`: the cell read and the state afterwards. -/
def queueDequeue {α : Type} (q : Queue α) : Option (Option α × Queue α) :=
  match (blockOf q.jobs)[q.old]? with
  | none => none
  | some cell =>
    some (cell, { jobs := q.jobs, arr_len := q.arr_len,
                  old := index q (addSz q.old 1), new := q.new })

/-- The function `queuePeek`. -/
def queuePeek {α : Type} (q : Queue α) : Option (Option α) :=
  (blockOf q.jobs)[index q q.old]?

/-- The test `old == index(new + 1)` of `queueEnqueue`, on the state as it is. -/
def queueFull {α : Type} (q : Queue α) : Bool :=
  decide (q.old = index q (addSz q.new 1))

/-- Whether `queueEnqueue` called in state `q` calls `queueGrow`. -/
def enqueueGrows {α : Type} (q : Queue α) : Bool :=
  queueFull (queueInitialize q)

/-! ### Sequences of calls -/

/-- A call of the queue interface. -/
inductive Op (α : Type) where
  | enq (job : α)
  | deq

/-- Run the calls in order from `q`; the result is the final state and what the
`queueDequeue` calls returned, in order. -/
def run {α : Type} : Queue α → List (Op α) → Option (Queue α × List (Option α))
  | q, [] => some (q, [])
  | q, Op.enq job :: ops =>
    match queueEnqueue q job with
    | none => none
    | some q1 => run q1 ops
  | q, Op.deq :: ops =>
    match queueDequeue q with
    | none => none
    | some (cell, q1) =>
      match run q1 ops with
      | none => none
      | some (q2, outs) => some (q2, cell :: outs)

/-- The jobs passed to `queueEnqueue`, in call order. -/
def enqueued {α : Type} : List (Op α) → List α
  | [] => []
  | Op.enq job :: ops => job :: enqueued ops
  | Op.deq :: ops => enqueued ops

/-- The number of `queueDequeue` calls. -/
def numDeq {α : Type} : List (Op α) → Nat
  | [] => 0
  | Op.enq _ :: ops => numDeq ops
  | Op.deq :: ops => numDeq ops + 1

/-- No `queueDequeue` is called on an empty queue, when `n` jobs are pending
before the first call. -/
def neverEmptyDeq {α : Type} : Nat → List (Op α) → Bool
  | _, [] => true
  | n, Op.enq _ :: ops => neverEmptyDeq (n + 1) ops
  | 0, Op.deq :: _ => false
  | n + 1, Op.deq :: ops => neverEmptyDeq n ops

/-- The index of the `i`-th live cell, counted from the head: `old`,
`index(old+1)`, ... as the comment at the top of `queue.c` lists them. -/
def livePos {α : Type} (q : Queue α) : Nat → Nat
  | 0 => q.old
  | i + 1 => index q (addSz (livePos q i) 1)

/-- The live cells from head to tail. -/
def contents {α : Type} (q : Queue α) : List (Option α) :=
  (List.range (queueSize q)).map (fun i => ((blockOf q.jobs)[livePos q i]?).join)

/-! ### Well-formed states and the list a state represents -/

/-- An initialised state: the block has `arr_len` cells and both indices lie
in `[1, arr_len - 1]`. -/
def WF {α : Type} (q : Queue α) : Prop :=
  (∃ b, q.jobs = some b ∧ b.length = q.arr_len) ∧
  1 ≤ q.old ∧ q.old < q.arr_len ∧ 1 ≤ q.new ∧ q.new < q.arr_len ∧ q.arr_len < SIZE_MOD

/-- Closed form of `livePos`. -/
def posCF {α : Type} (q : Queue α) (i : Nat) : Nat :=
  if q.old + i < q.arr_len then q.old + i else q.old + i + 1 - q.arr_len

/-- State `q` holds exactly the cells `l`, head first. -/
def Rep {α : Type} (q : Queue α) (l : List (Option α)) : Prop :=
  WF q ∧ l.length = queueSize q ∧
  ∀ i, i < l.length → (blockOf q.jobs)[posCF q i]? = l[i]?

/-- The growth series of `arr_len`, and cell 0 still indeterminate. -/
def Shape {α : Type} (q : Queue α) : Prop :=
  (∃ k, q.arr_len = QUEUE_MIN_SIZE * 2 ^ k) ∧ (blockOf q.jobs)[0]? = some none

/-- The two states a queue is in before its first `queueEnqueue`: the static
initial state, or the state `queueFree` leaves. -/
def IsFresh {α : Type} (s : Queue α) : Prop :=
  s = Queue.fresh ∨ ∃ q0, s = queueFree q0

/-- State `q` was reached from a fresh queue by the calls `ops`, none of them a
`queueDequeue` on an empty queue, fewer than `2 ^ 62` calls in all (more jobs
than that cannot be stored in a 64-bit address space). -/
def ReachedBy {α : Type} (ops : List (Op α)) (q : Queue α) : Prop :=
  ∃ s outs, IsFresh s ∧ neverEmptyDeq 0 ops = true ∧ ops.length < 2 ^ 62 ∧
    run s ops = some (q, outs)

/-- What `n` successive `queueDequeue` calls return. -/
def drain {α : Type} : Nat → Queue α → Option (List (Option α))
  | 0, _ => some []
  | n + 1, q =>
    match queueDequeue q with
    | none => none
    | some (cell, q1) =>
      match drain n q1 with
      | none => none
      | some cells => some (cell :: cells)

/-! ## `Src/server.c`: formatting the slot list -/

/-- The constant `MAX_ENVAL_LEN`. -/
def MAX_ENVAL_LEN : Nat := 10000

/-- The terminating byte of a C string. -/
def NUL : Char := Char.ofNat 0

/-- The text `%u` produces for `v`: its decimal digits. -/
def fmtU (v : Nat) : List Char := Nat.toDigits 10 v

/-- Store `bytes` at `buf + offset`; `none` when that runs past the end of `buf`. -/
def writeAt (buf : List Char) (offset : Nat) (bytes : List Char) : Option (List Char) :=
  if offset + bytes.length ≤ buf.length then
    some (buf.take offset ++ bytes ++ buf.drop (offset + bytes.length))
  else none

/-- The call `snprintf(buf + offset, space, fstring, v)`, with `text` the whole
formatted text: at most `space - 1` characters of it are stored, followed by a
NUL (nothing when `space` is 0), and the length of the whole text is returned.
The first component is the buffer afterwards, `none` when a byte was stored
outside it. -/
def snprintf (buf : List Char) (offset space : Nat) (text : List Char) :
    Option (List Char) × Nat :=
  if space = 0 then (some buf, text.length)
  else (writeAt buf offset (text.take (space - 1) ++ [NUL]), text.length)

/-- How a call of `constructEnvval` ends. -/
inductive EnvvalResult where
  /-- It returned `code`, leaving `buf`. -/
  | ret (code : Nat) (buf : List Char)
  /-- The assertion `slotc > 0` failed. -/
  | abort
  /-- It read past the end of `slotv` or wrote past the end of `buf`. -/
  | fault
  deriving DecidableEq

/-- The `for` loop of `constructEnvval` from `s` and `offset` on; the first
argument is `slotc - s`, the number of iterations left. -/
def envvalLoop (slotc : Nat) (slotv : List Nat) (buflen : Nat) :
    Nat → Nat → Nat → List Char → EnvvalResult
  | 0, _, _, buf => EnvvalResult.ret 0 buf
  | n + 1, s, offset, buf =>
    let space := subSz buflen offset
    match slotv[s]? with
    | none => EnvvalResult.fault
    | some v =>
      let text := if s = slotc - 1 then fmtU v else fmtU v ++ [',']
      match snprintf buf offset space text with
      | (none, _) => EnvvalResult.fault
      | (some buf1, chars) =>
        if chars = space then EnvvalResult.ret 1 buf1
        else envvalLoop slotc slotv buflen n (s + 1) (addSz offset chars) buf1

/-- The function `constructEnvval`. Slot numbers are taken as natural numbers. -/
def constructEnvval (slotc : Nat) (slotv : List Nat) (buflen : Nat) (buf : List Char) :
    EnvvalResult :=
  if slotc = 0 then EnvvalResult.abort
  else envvalLoop slotc slotv buflen slotc 0 0 buf

/-- The slot numbers joined by single commas. -/
def joined (slotv : List Nat) : List Char :=
  List.intercalate [','] (slotv.map fmtU)

/-! ## `Src/server.c`: running jobs -/

/-- The fields of `struct job` (`job.h`) that the sources use. -/
structure Job where
  argc : Nat
  argv : List String
  priority : Bool
  slots : Nat
  deriving DecidableEq

/-- The field of `struct server` the admission pass reads. The pointer `this`
is taken to be set, as it is once `serverMain` runs. -/
structure Server where
  numSlots : Nat
  deriving DecidableEq

/-- The functions of `slots.h` that `server.c` calls, over an allocator state
`σ`. `slotsReserveSet` gives its return value, the contents of the buffer it
was handed, and the state afterwards. -/
structure SlotsApi (σ : Type) where
  slotsAvailible : σ → Nat
  slotsReserveSet : σ → Nat → Nat × List Nat × σ
  slotsUnreserveSet : σ → Nat → List Nat → σ
  slotsRegisterSet : σ → Int → Nat → List Nat → σ

/-- A call of the slot allocator made by `runJob`. -/
inductive SlotCall where
  | reserve (count : Nat)
  | unreserve (count : Nat) (set : List Nat)
  | register (pid : Int) (count : Nat) (set : List Nat)
  deriving DecidableEq

/-- What the operating system answers during one `runJob`: whether `setenv`
fails, and the value `fork` returns. -/
structure Ext where
  setenvFail : Bool
  forkPid : Int

/-- How a call of `runJob` or `runJobs` ends. -/
inductive Outcome where
  /-- It returned `code` (`runJobs`, a `void` function, returns 0). -/
  | ret (code : Nat)
  /-- An assertion failed: the daemon aborts. -/
  | abort
  /-- This process is the forked child: it goes on to `execv` and never
  returns to the caller. -/
  | child
  /-- Undefined behaviour in `constructEnvval`. -/
  | fault
  /-- The iteration bound of the model was used up. -/
  | outOfFuel
  deriving DecidableEq

/-- The result of `runJob`: how it ended, the allocator state, and the
allocator calls it made, in order. -/
structure RunJobResult (σ : Type) where
  outcome : Outcome
  slots : σ
  calls : List SlotCall

/-- The function `runJob`. The local array `envval` starts with arbitrary
contents, here `MAX_ENVAL_LEN` NUL bytes. -/
def runJob {σ : Type} (api : SlotsApi σ) (st : σ) (job : Job) (ext : Ext) : RunJobResult σ :=
  let numslot := job.slots
  if api.slotsAvailible st < numslot then ⟨Outcome.abort, st, []⟩
  else
    match api.slotsReserveSet st numslot with
    | (fail, slotBuff, st1) =>
      if fail ≠ 0 then ⟨Outcome.ret 1, st1, [SlotCall.reserve numslot]⟩
      else
        match constructEnvval numslot slotBuff MAX_ENVAL_LEN
            (List.replicate MAX_ENVAL_LEN NUL) with
        | EnvvalResult.abort => ⟨Outcome.abort, st1, [SlotCall.reserve numslot]⟩
        | EnvvalResult.fault => ⟨Outcome.fault, st1, [SlotCall.reserve numslot]⟩
        | EnvvalResult.ret code _ =>
          if code ≠ 0 then
            ⟨Outcome.ret 1, api.slotsUnreserveSet st1 numslot slotBuff,
              [SlotCall.reserve numslot, SlotCall.unreserve numslot slotBuff]⟩
          else if ext.setenvFail then
            ⟨Outcome.ret 1, api.slotsUnreserveSet st1 numslot slotBuff,
              [SlotCall.reserve numslot, SlotCall.unreserve numslot slotBuff]⟩
          else if ext.forkPid = -1 then
            ⟨Outcome.ret 1, api.slotsUnreserveSet st1 numslot slotBuff,
              [SlotCall.reserve numslot, SlotCall.unreserve numslot slotBuff]⟩
          else if ext.forkPid ≠ 0 then
            ⟨Outcome.ret 0, api.slotsRegisterSet st1 ext.forkPid numslot slotBuff,
              [SlotCall.reserve numslot, SlotCall.register ext.forkPid numslot slotBuff]⟩
          else ⟨Outcome.child, st1, [SlotCall.reserve numslot]⟩

/-- Modelled from the spec: the Job List of `joblist.c`, which is not among the
sources; two FIFO tiers, "priority" and "normal" (spec section 3). -/
structure JobList where
  priority : List Job
  normal : List Job
  deriving DecidableEq

/-- Modelled from the spec: `listAdd`, missing from the sources; "enqueues into
the priority or normal sub-queue per the flag" (spec section 4.3). -/
def listAdd (jl : JobList) (job : Job) (priority : Bool) : JobList :=
  if priority then { priority := jl.priority ++ [job], normal := jl.normal }
  else { priority := jl.priority, normal := jl.normal ++ [job] }

/-- Modelled from the spec: `listNext`, missing from the sources; "priority
sub-queue drained first (FIFO within it), then normal; signals empty when both
are empty" (spec section 4.3). `none` is the nonzero return value. -/
def listNext (jl : JobList) : Option (Job × JobList) :=
  match jl.priority with
  | job :: rest => some (job, { priority := rest, normal := jl.normal })
  | [] =>
    match jl.normal with
    | job :: rest => some (job, { priority := [], normal := rest })
    | [] => none

/-- Modelled from the spec: `listSize`, missing from the sources; "sum of both
sub-queue sizes" (spec section 4.3). -/
def listSize (jl : JobList) : Nat := jl.priority.length + jl.normal.length

/-- The function `serverAddJob`. -/
def serverAddJob (jl : JobList) (job : Job) : JobList := listAdd jl job job.priority

/-- The state the admission pass works on: the Job List, the allocator, the
lines written to the log and error files, the allocator calls made so far,
and the number of `runJob` calls so far. -/
structure World (σ : Type) where
  list : JobList
  slots : σ
  log : List String
  err : List String
  calls : List SlotCall
  spawned : Nat

/-- The `while (1)` loop of `runJobs`; the first argument bounds the number of
iterations. `exts n` is what the operating system answers during the `n`-th
call of `runJob`. -/
def runJobsLoop {σ : Type} (api : SlotsApi σ) (srv : Server) (exts : Nat → Ext) :
    Nat → World σ → Outcome × World σ
  | 0, w => (Outcome.outOfFuel, w)
  | fuel + 1, w =>
    match listNext w.list with
    | none => (Outcome.ret 0, w)
    | some (job, rest) =>
      if ¬ srv.numSlots ≤ job.slots then
        (Outcome.abort, { w with list := rest })
      else if api.slotsAvailible w.slots < job.slots then
        (Outcome.ret 0, { w with list := listAdd rest job true })
      else
        let r := runJob api w.slots job (exts w.spawned)
        match r.outcome with
        | Outcome.ret code =>
          runJobsLoop api srv exts fuel
            { list := rest
              slots := r.slots
              log := if code ≠ 0 then w.log
                     else w.log ++ ["Began executing \"" ++ job.argv.headD "" ++ "\"\n"]
              err := if code ≠ 0 then
                       w.err ++ ["Failed to execute job \"" ++ job.argv.headD "" ++ "\"\n"]
                     else w.err
              calls := w.calls ++ r.calls
              spawned := w.spawned + 1 }
        | other =>
          (other, { list := rest, slots := r.slots, log := w.log, err := w.err,
                    calls := w.calls ++ r.calls, spawned := w.spawned + 1 })

/-- The function `runJobs`. Every iteration but the last takes a job off the
Job List, so `listSize + 1` iterations are enough. -/
def runJobs {σ : Type} (api : SlotsApi σ) (srv : Server) (exts : Nat → Ext) (w : World σ) :
    Outcome × World σ :=
  runJobsLoop api srv exts (listSize w.list + 1) w

/-! ### The slot allocator -/

/-- Modelled from the spec: the state of the slot allocator of `slots.c`, which
is not among the sources; "a fixed-length table of N resource-unit identifiers
with a free/reserved bit per unit, plus a mapping from an in-flight process
identifier to the ordered set of unit identifiers it was granted" (spec
section 3). `reserved[i]` is the bit of unit `i`. -/
structure SlotTable where
  reserved : List Bool
  owners : List (Int × List Nat)
  deriving DecidableEq

/-- Modelled from the spec: `slotsAvailible`, missing from the sources; "count
of currently free units" (spec section 4.2). -/
def SlotTable.available (t : SlotTable) : Nat := t.reserved.count false

/-- The first `count` free units of a table whose first entry is unit `base`. -/
def pickFree : List Bool → Nat → Nat → List Nat
  | [], _, _ => []
  | _ :: _, _, 0 => []
  | true :: rest, base, count + 1 => pickFree rest (base + 1) (count + 1)
  | false :: rest, base, count + 1 => base :: pickFree rest (base + 1) count

/-- Set the bit of every unit of `ids` to `v`. -/
def markAll (v : Bool) (ids : List Nat) (tbl : List Bool) : List Bool :=
  ids.foldl (fun t i => t.set i v) tbl

/-- Modelled from the spec: `slotsReserveSet`, missing from the sources;
"reserves `count` free units if `available() >= count`, else returns a busy
signal" without touching the state, lowest identifiers first (spec section
4.2). -/
def SlotTable.reserveSet (t : SlotTable) (count : Nat) : Nat × List Nat × SlotTable :=
  if t.available < count then (1, [], t)
  else
    (0, pickFree t.reserved 0 count,
      { reserved := markAll true (pickFree t.reserved 0 count) t.reserved, owners := t.owners })

/-- Modelled from the spec: `slotsUnreserveSet`, missing from the sources;
"returns those units to the free pool" (spec section 4.2). -/
def SlotTable.unreserveSet (t : SlotTable) (count : Nat) (set : List Nat) : SlotTable :=
  { reserved := markAll false (set.take count) t.reserved, owners := t.owners }

/-- Modelled from the spec: `slotsRegisterSet`, missing from the sources;
"records that process `pid` owns `set`" (spec section 4.2). -/
def SlotTable.registerSet (t : SlotTable) (pid : Int) (count : Nat) (set : List Nat) :
    SlotTable :=
  { reserved := t.reserved, owners := (pid, set.take count) :: t.owners }

/-- Modelled from the spec: the slot allocator of `slots.c` as an instance of
the interface `server.c` calls. -/
def specSlots : SlotsApi SlotTable :=
  { slotsAvailible := SlotTable.available
    slotsReserveSet := SlotTable.reserveSet
    slotsUnreserveSet := SlotTable.unreserveSet
    slotsRegisterSet := SlotTable.registerSet }

/-- What the spec promises of the allocator and `runJob` relies on: a failed
`slotsReserveSet` leaves the free count as it was, and `slotsUnreserveSet`
after a successful `slotsReserveSet` restores it (spec sections 4.2 and 8). -/
def SlotsLaws {σ : Type} (api : SlotsApi σ) : Prop :=
  (∀ st count, (api.slotsReserveSet st count).1 ≠ 0 →
    api.slotsAvailible (api.slotsReserveSet st count).2.2 = api.slotsAvailible st) ∧
  (∀ st count, (api.slotsReserveSet st count).1 = 0 →
    api.slotsAvailible
      (api.slotsUnreserveSet (api.slotsReserveSet st count).2.2 count
        (api.slotsReserveSet st count).2.1) = api.slotsAvailible st)

/-! ### Sample inputs -/

/-- A table of two units, unit 0 held by process 100. -/
def demoTable : SlotTable := { reserved := [true, false], owners := [(100, [0])] }

/-- A table of two free units. -/
def demoFreeTable : SlotTable := { reserved := [false, false], owners := [] }

/-- A job for `name` with the given priority flag and slot count. -/
def demoJob (name : String) (priority : Bool) (slots : Nat) : Job :=
  { argc := 1, argv := [name], priority := priority, slots := slots }

/-- An operating system where `setenv` succeeds and `fork` returns 4242. -/
def demoExts : Nat → Ext := fun _ => { setenvFail := false, forkPid := 4242 }

/-- A world with the given Job List and allocator table and nothing logged. -/
def demoWorld (jl : JobList) (t : SlotTable) : World SlotTable :=
  { list := jl, slots := t, log := [], err := [], calls := [], spawned := 0 }

/-! ## Lemmas on the queue -/

theorem addSz_small {a b : Nat} (h : a + b < SIZE_MOD) : addSz a b = a + b := by
  unfold addSz
  exact Nat.mod_eq_of_lt h

theorem subSz_small {a b : Nat} (hb : b ≤ a) (ha : a < SIZE_MOD) : subSz a b = a - b := by
  unfold subSz SIZE_MOD at *
  omega

theorem mulSz_small {a b : Nat} (h : a * b < SIZE_MOD) : mulSz a b = a * b := by
  unfold mulSz
  exact Nat.mod_eq_of_lt h

theorem index_succ {α : Type} (q : Queue α) (x : Nat) (hlen : q.arr_len < SIZE_MOD)
    (hx : x < q.arr_len) :
    index q (addSz x 1) = if x + 1 = q.arr_len then 1 else x + 1 := by
  have h1 : addSz x 1 = x + 1 := addSz_small (by omega)
  rw [h1]
  unfold index
  simp

theorem queueSize_eq {α : Type} (q : Queue α) (h : WF q) :
    queueSize q = if q.old ≤ q.new then q.new - q.old else q.arr_len - 1 - (q.old - q.new) := by
  obtain ⟨_, ho1, ho2, hn1, hn2, hlen⟩ := h
  unfold queueSize
  split
  · exact subSz_small (by omega) (by omega)
  · have h1 : subSz q.arr_len 1 = q.arr_len - 1 := subSz_small (by omega) hlen
    have h2 : subSz q.old q.new = q.old - q.new := subSz_small (by omega) (by omega)
    rw [h1, h2]
    exact subSz_small (by omega) (by omega)

theorem queueSize_le {α : Type} (q : Queue α) (h : WF q) : queueSize q ≤ q.arr_len - 2 := by
  rw [queueSize_eq q h]
  obtain ⟨_, ho1, ho2, hn1, hn2, hlen⟩ := h
  split <;> omega

theorem posCF_size {α : Type} (q : Queue α) (h : WF q) : posCF q (queueSize q) = q.new := by
  rw [queueSize_eq q h]
  obtain ⟨_, ho1, ho2, hn1, hn2, hlen⟩ := h
  unfold posCF
  split <;> split <;> omega

theorem posCF_ne_new {α : Type} (q : Queue α) (h : WF q) (i : Nat) (hi : i < queueSize q) :
    posCF q i ≠ q.new := by
  rw [queueSize_eq q h] at hi
  obtain ⟨_, ho1, ho2, hn1, hn2, hlen⟩ := h
  unfold posCF
  split at hi <;> split <;> omega

theorem posCF_bounds {α : Type} (q : Queue α) (h : WF q) (i : Nat) (hi : i ≤ queueSize q) :
    1 ≤ posCF q i ∧ posCF q i < q.arr_len := by
  rw [queueSize_eq q h] at hi
  obtain ⟨_, ho1, ho2, hn1, hn2, hlen⟩ := h
  unfold posCF
  split at hi <;> split <;> omega

theorem posCF_succ {α : Type} (q : Queue α) (h : WF q) (i : Nat) (hi : i < queueSize q) :
    index q (addSz (posCF q i) 1) = posCF q (i + 1) := by
  have hb := posCF_bounds q h i (by omega)
  rw [index_succ q _ h.2.2.2.2.2 hb.2]
  rw [queueSize_eq q h] at hi
  obtain ⟨_, ho1, ho2, hn1, hn2, hlen⟩ := h
  unfold posCF at *
  split at hi <;> split <;> split <;> split <;> omega

theorem livePos_eq {α : Type} (q : Queue α) (h : WF q) (i : Nat) (hi : i ≤ queueSize q) :
    livePos q i = posCF q i := by
  induction i with
  | zero =>
    obtain ⟨_, ho1, ho2, hn1, hn2, hlen⟩ := h
    simp [livePos, posCF, ho2]
  | succ i ih =>
    rw [livePos, ih (by omega), posCF_succ q h i (by omega)]

theorem posCF_congr {α : Type} (q q1 : Queue α) (ho : q1.old = q.old)
    (hl : q1.arr_len = q.arr_len) (i : Nat) : posCF q1 i = posCF q i := by
  unfold posCF
  rw [ho, hl]

theorem dequeue_rep_aux {α : Type} (q q1 : Queue α) (c : Option α) (l : List (Option α))
    (h : Rep q (c :: l)) (hj : q1.jobs = q.jobs) (ha : q1.arr_len = q.arr_len)
    (ho : q1.old = index q (addSz q.old 1)) (hn : q1.new = q.new) : Rep q1 l := by
  obtain ⟨hwf, hlen, hcells⟩ := h
  have hwf0 := hwf
  obtain ⟨⟨b, hb, hbl⟩, ho1, ho2, hn1, hn2, hal⟩ := hwf
  have hsz := queueSize_eq q hwf0
  simp only [List.length_cons] at hlen
  rw [index_succ q q.old hal ho2] at ho
  have hwf1 : WF q1 := by
    refine ⟨⟨b, by rw [hj, hb], by rw [ha, hbl]⟩, ?_, ?_, ?_, ?_, ?_⟩
    · rw [ho]; split <;> omega
    · rw [ho, ha]; split <;> omega
    · omega
    · omega
    · omega
  refine ⟨hwf1, ?_, ?_⟩
  · rw [queueSize_eq _ hwf1, ho, hn, ha]
    rw [hsz] at hlen
    split_ifs at hlen ⊢ <;> omega
  · intro i hi
    have hc := hcells (i + 1) (by simp; omega)
    simp only [List.getElem?_cons_succ] at hc
    rw [← hc, hj]
    have hpe : posCF q1 i = posCF q (i + 1) := by
      unfold posCF
      rw [ho, ha]
      rw [hsz] at hlen
      split_ifs at hlen ⊢ <;> omega
    rw [hpe]

theorem dequeue_rep {α : Type} (q : Queue α) (c : Option α) (l : List (Option α))
    (h : Rep q (c :: l)) :
    ∃ q1, queueDequeue q = some (c, q1) ∧ Rep q1 l ∧ q1.arr_len = q.arr_len ∧
      q1.jobs = q.jobs := by
  have h0 := h.2.2 0 (by simp)
  have hp0 : posCF q 0 = q.old := by
    unfold posCF
    have := h.1.2.2.1
    simp [this]
  rw [hp0] at h0
  simp only [List.getElem?_cons_zero] at h0
  refine ⟨⟨q.jobs, q.arr_len, index q (addSz q.old 1), q.new⟩, ?_,
    dequeue_rep_aux q _ c l h rfl rfl rfl rfl, rfl, rfl⟩
  unfold queueDequeue
  rw [h0]

theorem enqueue_rep_aux {α : Type} (q q1 : Queue α) (job : Option α) (l : List (Option α))
    (h : Rep q l) (hnf : q.old ≠ index q (addSz q.new 1))
    (hj : q1.jobs = some ((blockOf q.jobs).set q.new job)) (ha : q1.arr_len = q.arr_len)
    (ho : q1.old = q.old) (hn : q1.new = index q (addSz q.new 1)) :
    Rep q1 (l ++ [job]) := by
  obtain ⟨hwf, hlen, hcells⟩ := h
  have hwf0 := hwf
  obtain ⟨⟨b, hb, hbl⟩, ho1, ho2, hn1, hn2, hal⟩ := hwf
  have hsz := queueSize_eq q hwf0
  rw [index_succ q q.new hal hn2] at hn hnf
  have hwf1 : WF q1 := by
    refine ⟨⟨_, hj, ?_⟩, ?_, ?_, ?_, ?_, ?_⟩
    · rw [List.length_set, hb, ha]; exact hbl
    · omega
    · omega
    · rw [hn]; split <;> omega
    · rw [hn, ha]; split <;> omega
    · omega
  refine ⟨hwf1, ?_, ?_⟩
  · rw [queueSize_eq _ hwf1, ho, hn, ha, List.length_append, hlen, hsz]
    simp only [List.length_singleton]
    split_ifs at hnf ⊢ <;> omega
  · intro i hi
    rw [posCF_congr q q1 ho ha, hj]
    simp only [blockOf]
    simp only [List.length_append, List.length_singleton] at hi
    by_cases hil : i < l.length
    · have hne := posCF_ne_new q hwf0 i (by omega)
      rw [List.getElem?_set_ne (Ne.symm hne), List.getElem?_append_left hil]
      exact hcells i hil
    · have hie : i = l.length := by omega
      subst hie
      rw [hlen, posCF_size q hwf0]
      rw [List.getElem?_set_eq_of_lt]
      · rw [← hlen]; simp
      · rw [hb]; simp only [blockOf]; omega

theorem growLoop_spec {α : Type} (q : Queue α) (b : List (Option α)) (hwf : WF q)
    (hb : b.length = q.arr_len) (hmem : q.arr_len * 2 < SIZE_MOD) :
    ∀ (fuel t : Nat) (jobs : List (Option α)), t ≤ queueSize q → queueSize q - t ≤ fuel →
      jobs.length = q.arr_len * 2 →
      ∃ jobs1, growLoop q b fuel (posCF q t) (1 + t) jobs = some (jobs1, 1 + queueSize q) ∧
        jobs1.length = q.arr_len * 2 ∧
        (∀ i, t ≤ i → i < queueSize q → jobs1[1 + i]? = b[posCF q i]?) ∧
        (∀ k, k < 1 + t → jobs1[k]? = jobs[k]?) := by
  intro fuel
  induction fuel with
  | zero =>
    intro t jobs ht hf hj
    have hts : t = queueSize q := by omega
    subst hts
    refine ⟨jobs, ?_, hj, ?_, fun k _ => rfl⟩
    · simp [growLoop, posCF_size q hwf]
    · intro i h1 h2; omega
  | succ fuel ih =>
    intro t jobs ht hf hj
    by_cases hts : t = queueSize q
    · subst hts
      refine ⟨jobs, ?_, hj, ?_, fun k _ => rfl⟩
      · simp [growLoop, posCF_size q hwf]
      · intro i h1 h2; omega
    · have htl : t < queueSize q := by omega
      have hne := posCF_ne_new q hwf t htl
      have hbd := posCF_bounds q hwf t ht
      have hsl := queueSize_le q hwf
      obtain ⟨cell, hcell⟩ : ∃ cell, b[posCF q t]? = some cell :=
        ⟨b.get ⟨posCF q t, by omega⟩, List.getElem?_eq_getElem (by omega)⟩
      obtain ⟨jobs1, hr, hl1, hc1, hk1⟩ :=
        ih (t + 1) (jobs.set (1 + t) cell) (by omega) (by omega)
          (by rw [List.length_set]; exact hj)
      refine ⟨jobs1, ?_, hl1, ?_, ?_⟩
      · rw [growLoop, if_neg hne, hcell]
        simp only
        rw [if_pos (by omega), posCF_succ q hwf t htl,
          addSz_small (by unfold SIZE_MOD at *; omega)]
        rw [show 1 + t + 1 = 1 + (t + 1) by omega]
        exact hr
      · intro i h1 h2
        by_cases hit : i = t
        · subst hit
          rw [hk1 (1 + i) (by omega), List.getElem?_set_eq_of_lt _ (by omega), hcell]
        · exact hc1 i (by omega) h2
      · intro k hk
        rw [hk1 k (by omega), List.getElem?_set_ne (by omega)]

theorem grow_rep {α : Type} (q : Queue α) (l : List (Option α)) (h : Rep q l)
    (hmem : q.arr_len * 2 < SIZE_MOD) :
    ∃ q1, queueGrow q = some q1 ∧ Rep q1 l ∧ q1.arr_len = q.arr_len * 2 ∧ q1.old = 1 ∧
      q1.new = queueSize q + 1 ∧ (blockOf q1.jobs)[0]? = some none ∧
      (∀ i, i < queueSize q → (blockOf q1.jobs)[1 + i]? = (blockOf q.jobs)[livePos q i]?) := by
  obtain ⟨hwf, hlen, hcells⟩ := h
  have hwf0 := hwf
  obtain ⟨⟨b, hb, hbl⟩, ho1, ho2, hn1, hn2, hal⟩ := hwf
  have hbo : blockOf q.jobs = b := by rw [hb]; rfl
  have hsl := queueSize_le q hwf0
  obtain ⟨jobs1, hr, hl1, hc1, hk1⟩ := growLoop_spec q b hwf0 hbl hmem q.arr_len 0
    (mallocJobs (q.arr_len * 2)) (by omega) (by omega) (by simp [mallocJobs])
  have hp0 : posCF q 0 = q.old := by unfold posCF; simp [ho2]
  rw [hp0] at hr
  have hq : queueGrow q = some ⟨some jobs1, q.arr_len * 2, 1, 1 + queueSize q⟩ := by
    unfold queueGrow
    rw [hbo, hr, mulSz_small hmem]
  have hwf1 : WF (⟨some jobs1, q.arr_len * 2, 1, 1 + queueSize q⟩ : Queue α) := by
    refine ⟨⟨jobs1, rfl, hl1⟩, ?_, ?_, ?_, ?_, ?_⟩ <;> simp only <;> omega
  have hz : jobs1[0]? = some none := by
    rw [hk1 0 (by omega)]
    simp only [mallocJobs]
    rw [List.getElem?_replicate]
    simp; omega
  refine ⟨_, hq, ⟨hwf1, ?_, ?_⟩, rfl, rfl, by simp only; omega, hz, ?_⟩
  · rw [queueSize_eq _ hwf1]
    simp only
    rw [if_pos (by omega)]
    omega
  · intro i hi
    have hpe : posCF (⟨some jobs1, q.arr_len * 2, 1, 1 + queueSize q⟩ : Queue α) i = 1 + i := by
      unfold posCF
      simp only
      rw [if_pos (by omega)]
    rw [hpe]
    show jobs1[1 + i]? = l[i]?
    rw [hc1 i (by omega) (by omega), ← hbo]
    exact hcells i hi
  · intro i hi
    show jobs1[1 + i]? = _
    rw [hc1 i (by omega) hi, hbo, livePos_eq q hwf0 i (by omega)]

theorem queueInitialize_of_some {α : Type} (q : Queue α) (b : List (Option α))
    (h : q.jobs = some b) : queueInitialize q = q := by
  unfold queueInitialize
  rw [h]

theorem enqueue_rep {α : Type} (q : Queue α) (job : α) (l : List (Option α)) (h : Rep q l)
    (hmem : 2 * (l.length + 2) < SIZE_MOD) :
    ∃ q1, queueEnqueue q job = some q1 ∧ Rep q1 (l ++ [some job]) ∧
      (q1.arr_len = q.arr_len ∨ (q.arr_len = l.length + 2 ∧ q1.arr_len = q.arr_len * 2)) ∧
      ((blockOf q.jobs)[0]? = some none → (blockOf q1.jobs)[0]? = some none) := by
  have hwf := h.1
  obtain ⟨⟨b, hb, hbl⟩, ho1, ho2, hn1, hn2, hal⟩ := hwf
  have hsz := queueSize_eq q h.1
  have hlen := h.2.1
  have key : ∀ q2 : Queue α, Rep q2 l → q2.old ≠ index q2 (addSz q2.new 1) →
      ∃ q1, (if q2.new < (blockOf q2.jobs).length then
          some (⟨some ((blockOf q2.jobs).set q2.new (some job)), q2.arr_len, q2.old,
            index q2 (addSz q2.new 1)⟩ : Queue α) else none) = some q1 ∧
        Rep q1 (l ++ [some job]) ∧ q1.arr_len = q2.arr_len ∧
        ((blockOf q2.jobs)[0]? = some none → (blockOf q1.jobs)[0]? = some none) := by
    intro q2 h2 hnf
    obtain ⟨⟨b2, hb2, hbl2⟩, _, _, hn12, hn22, _⟩ := h2.1
    have hbo2 : blockOf q2.jobs = b2 := by rw [hb2]; rfl
    refine ⟨⟨some ((blockOf q2.jobs).set q2.new (some job)), q2.arr_len, q2.old,
        index q2 (addSz q2.new 1)⟩, ?_,
      enqueue_rep_aux q2 _ (some job) l h2 hnf rfl rfl rfl rfl, rfl, ?_⟩
    · rw [if_pos (by rw [hbo2]; omega)]
    · intro hz
      show ((blockOf q2.jobs).set q2.new (some job))[0]? = some none
      rw [List.getElem?_set_ne (by omega)]
      exact hz
  unfold queueEnqueue
  simp only [queueInitialize_of_some q b hb]
  by_cases hfull : q.old = index q (addSz q.new 1)
  · rw [if_pos hfull]
    have hfull1 := hfull
    rw [index_succ q q.new hal hn2] at hfull1
    have hlfull : q.arr_len = l.length + 2 := by
      rw [hlen, hsz]
      split_ifs at hfull1 ⊢ <;> omega
    obtain ⟨q2, hg, hr2, ha2, ho2g, hn2g, hz2, _⟩ := grow_rep q l h (by omega)
    rw [hg]
    simp only
    have hnf2 : q2.old ≠ index q2 (addSz q2.new 1) := by
      rw [index_succ q2 q2.new hr2.1.2.2.2.2.2 hr2.1.2.2.2.2.1, ho2g, hn2g, ha2, ← hlen]
      split_ifs <;> omega
    obtain ⟨q1, he, hr1, ha1, hz1⟩ := key q2 hr2 hnf2
    exact ⟨q1, he, hr1, Or.inr ⟨hlfull, by rw [ha1, ha2]⟩, fun _ => hz1 hz2⟩
  · rw [if_neg hfull]
    simp only
    obtain ⟨q1, he, hr1, ha1, hz1⟩ := key q h hfull
    exact ⟨q1, he, hr1, Or.inl ha1, hz1⟩

theorem run_rep {α : Type} : ∀ (ops : List (Op α)) (q : Queue α) (l : List (Option α))
    (e : Nat), Rep q l → Shape q → l.length ≤ e → e + ops.length < 2 ^ 62 →
    neverEmptyDeq l.length ops = true →
    ∃ q1 outs l1, run q ops = some (q1, outs) ∧ Rep q1 l1 ∧ Shape q1 ∧
      l ++ (enqueued ops).map some = outs ++ l1 ∧ outs.length = numDeq ops := by
  intro ops
  induction ops with
  | nil =>
    intro q l e hr hs _ _ _
    exact ⟨q, [], l, rfl, hr, hs, by simp [enqueued], rfl⟩
  | cons op ops ih =>
    intro q l e hr hs hle hmem hne
    simp only [List.length_cons] at hmem
    cases op with
    | enq job =>
      obtain ⟨q1, he, hr1, ha1, hz1⟩ := enqueue_rep q job l hr (by unfold SIZE_MOD; omega)
      have hs1 : Shape q1 := by
        obtain ⟨⟨k, hk⟩, hz⟩ := hs
        refine ⟨?_, hz1 hz⟩
        rcases ha1 with ha | ⟨_, ha⟩
        · exact ⟨k, by rw [ha, hk]⟩
        · exact ⟨k + 1, by rw [ha, hk, pow_succ, Nat.mul_assoc]⟩
      have hne1 : neverEmptyDeq (l ++ [some job]).length ops = true := by
        simp only [List.length_append, List.length_singleton]
        simpa [neverEmptyDeq] using hne
      obtain ⟨q2, outs, l2, hrun, hr2, hs2, happ, hlen⟩ :=
        ih q1 (l ++ [some job]) (e + 1) hr1 hs1 (by simp; omega) (by omega) hne1
      refine ⟨q2, outs, l2, ?_, hr2, hs2, ?_, ?_⟩
      · simp only [run, he]
        exact hrun
      · rw [← happ]
        simp [enqueued]
      · simpa [numDeq] using hlen
    | deq =>
      cases l with
      | nil => simp [neverEmptyDeq] at hne
      | cons c l =>
        obtain ⟨q1, hd, hr1, ha1, hj1⟩ := dequeue_rep q c l hr
        have hs1 : Shape q1 := by
          obtain ⟨⟨k, hk⟩, hz⟩ := hs
          exact ⟨⟨k, by rw [ha1, hk]⟩, by rw [hj1]; exact hz⟩
        have hne1 : neverEmptyDeq l.length ops = true := by
          simpa [neverEmptyDeq] using hne
        simp only [List.length_cons] at hle
        obtain ⟨q2, outs, l2, hrun, hr2, hs2, happ, hlen⟩ :=
          ih q1 l e hr1 hs1 (by omega) (by omega) hne1
        refine ⟨q2, c :: outs, l2, ?_, hr2, hs2, ?_, ?_⟩
        · simp only [run, hd, hrun]
        · simp only [enqueued, List.cons_append]
          rw [happ]
        · simp [numDeq, hlen]

theorem rep_initialize {α : Type} (s : Queue α) (hs : s.jobs = none) :
    Rep (queueInitialize s) [] ∧ Shape (queueInitialize s) := by
  have hq : queueInitialize s = ⟨some (mallocJobs QUEUE_MIN_SIZE), QUEUE_MIN_SIZE, 1, 1⟩ := by
    unfold queueInitialize
    rw [hs]
  rw [hq]
  refine ⟨⟨⟨⟨_, rfl, by simp [mallocJobs]⟩, ?_, ?_, ?_, ?_, ?_⟩, ?_, ?_⟩, ⟨0, ?_⟩, ?_⟩
  · simp
  · simp [QUEUE_MIN_SIZE]
  · simp
  · simp [QUEUE_MIN_SIZE]
  · simp [QUEUE_MIN_SIZE, SIZE_MOD]
  · simp [queueSize, subSz, SIZE_MOD]
  · intro i hi
    simp at hi
  · simp
  · simp [blockOf, mallocJobs, QUEUE_MIN_SIZE]

theorem enqueue_initialize {α : Type} (s : Queue α) (job : α) :
    queueEnqueue (queueInitialize s) job = queueEnqueue s job := by
  have hi : queueInitialize (queueInitialize s) = queueInitialize s := by
    cases hj : s.jobs with
    | none =>
      unfold queueInitialize
      simp [hj]
    | some b => rw [queueInitialize_of_some s b hj, queueInitialize_of_some s b hj]
  unfold queueEnqueue
  rw [hi]

theorem run_fresh {α : Type} (s : Queue α) (hs : s.jobs = none) (job : α) (ops : List (Op α))
    (hne : neverEmptyDeq 0 (Op.enq job :: ops) = true)
    (hmem : (Op.enq job :: ops).length < 2 ^ 62) :
    ∃ q outs l, run s (Op.enq job :: ops) = some (q, outs) ∧ Rep q l ∧ Shape q ∧
      (enqueued (Op.enq job :: ops)).map some = outs ++ l ∧
      outs.length = numDeq (Op.enq job :: ops) := by
  obtain ⟨hr, hsh⟩ := rep_initialize s hs
  obtain ⟨q, outs, l, hrun, hr1, hs1, happ, hlen⟩ :=
    run_rep (Op.enq job :: ops) (queueInitialize s) [] 0 hr hsh (by simp)
      (by omega) hne
  refine ⟨q, outs, l, ?_, hr1, hs1, by simpa using happ, hlen⟩
  rw [← hrun]
  simp only [run, enqueue_initialize]

theorem IsFresh.jobs {α : Type} {s : Queue α} (h : IsFresh s) : s.jobs = none := by
  rcases h with h | ⟨q0, h⟩ <;> rw [h] <;> rfl

theorem IsFresh.size {α : Type} {s : Queue α} (h : IsFresh s) : queueSize s = 0 := by
  rcases h with h | ⟨q0, h⟩ <;> rw [h] <;> simp [queueSize, Queue.fresh, queueFree, subSz, SIZE_MOD]

/-! ## The queue claims -/

theorem rep_contents {α : Type} (q : Queue α) (h : WF q) : Rep q (contents q) := by
  have hlen : (contents q).length = queueSize q := by simp [contents]
  refine ⟨h, hlen, ?_⟩
  intro i hi
  rw [hlen] at hi
  obtain ⟨b, hb, hbl⟩ := h.1
  have hbd := posCF_bounds q h i (by omega)
  have hbo : blockOf q.jobs = b := by rw [hb]; rfl
  have hin : posCF q i < b.length := by omega
  unfold contents
  rw [List.getElem?_map, List.getElem?_range hi]
  simp only [Option.map_some']
  rw [livePos_eq q h i (by omega), hbo, List.getElem?_eq_getElem hin]
  rfl

theorem drain_rep {α : Type} : ∀ (n : Nat) (q : Queue α) (l : List (Option α)),
    Rep q l → n ≤ l.length → drain n q = some (l.take n) := by
  intro n
  induction n with
  | zero => intro q l _ _; rfl
  | succ n ih =>
    intro q l h hn
    cases l with
    | nil => simp at hn
    | cons c l =>
      obtain ⟨q1, hd, hr1, _, _⟩ := dequeue_rep q c l h
      simp only [List.length_cons] at hn
      simp only [drain, hd, ih q1 l hr1 (by omega), List.take_succ_cons]

theorem reachedBy_cases {α : Type} (ops : List (Op α)) (q : Queue α) (h : ReachedBy ops q) :
    (ops = [] ∧ IsFresh q) ∨
    (∃ outs l, Rep q l ∧ Shape q ∧ (enqueued ops).map some = outs ++ l ∧
      outs.length = numDeq ops ∧ ∃ job rest, ops = Op.enq job :: rest) := by
  obtain ⟨s, outs, hs, hne, hmem, hrun⟩ := h
  cases ops with
  | nil =>
    simp only [run, Option.some.injEq, Prod.mk.injEq] at hrun
    exact Or.inl ⟨rfl, hrun.1 ▸ hs⟩
  | cons op rest =>
    cases op with
    | deq => simp [neverEmptyDeq] at hne
    | enq job =>
      obtain ⟨q1, outs1, l, hrun1, hr, hsh, happ, hlen⟩ := run_fresh s hs.jobs job rest hne hmem
      rw [hrun1] at hrun
      simp only [Option.some.injEq, Prod.mk.injEq] at hrun
      obtain ⟨hq, _⟩ := hrun
      subst hq
      exact Or.inr ⟨outs1, l, hr, hsh, happ, hlen, job, rest, rfl⟩

/-- C1. Starting from a fresh queue (never initialised, or freed), every
sequence of `queueEnqueue` and `queueDequeue` calls that never dequeues from
an empty queue and stays within the memory limit runs without fault; the
dequeues return, in order, the first jobs that were enqueued (the k-th
dequeue returns the k-th enqueued job), and afterwards `queueSize` is the
number of enqueues minus the number of dequeues. Wrap-around and growth are
covered: the sequence is arbitrary. -/
theorem queue_fifo {α : Type} (s : Queue α) (hs : IsFresh s) (ops : List (Op α))
    (hne : neverEmptyDeq 0 ops = true) (hmem : ops.length < 2 ^ 62) :
    ∃ q, run s ops = some (q, ((enqueued ops).take (numDeq ops)).map some) ∧
      numDeq ops ≤ (enqueued ops).length ∧
      queueSize q = (enqueued ops).length - numDeq ops := by
  cases ops with
  | nil => exact ⟨s, rfl, Nat.le_refl _, hs.size⟩
  | cons op rest =>
    cases op with
    | deq => simp [neverEmptyDeq] at hne
    | enq job =>
      obtain ⟨q, outs, l, hrun, hr, _, happ, hlen⟩ := run_fresh s hs.jobs job rest hne hmem
      have hl := congrArg List.length happ
      simp only [List.length_map, List.length_append] at hl
      refine ⟨q, ?_, by omega, ?_⟩
      · rw [hrun, List.map_take, happ, ← hlen, List.take_left]
      · rw [← hr.2.1]; omega

/-- Witness of C1: two enqueues, a dequeue, an enqueue, a dequeue. -/
theorem queue_fifo_witness :
    ∃ q, run (Queue.fresh : Queue Nat)
        [Op.enq 7, Op.enq 9, Op.deq, Op.enq 11, Op.deq] = some (q, [some 7, some 9]) ∧
      2 ≤ 3 ∧ queueSize q = 1 :=
  queue_fifo Queue.fresh (Or.inl rfl) [Op.enq 7, Op.enq 9, Op.deq, Op.enq 11, Op.deq]
    (by decide) (by decide)

/-- C2. In every initialised state with `1 <= old, new < arr_len` (wrapped or
not, at any fill level) whose doubled length is still a `size_t`, `queueGrow`
succeeds, doubles `arr_len`, sets `old = 1` and `new = count + 1` with `count`
the value of `queueSize` before the call, and stores the live cells at indices
`1 .. count` of the new array in head-to-tail order; `queueSize` is unchanged
and any number `n <= count` of subsequent dequeues returns the same jobs as
it would have without the growth. -/
theorem queueGrow_preserves {α : Type} (q : Queue α) (hwf : WF q)
    (hmem : q.arr_len * 2 < SIZE_MOD) :
    ∃ q1, queueGrow q = some q1 ∧ q1.arr_len = q.arr_len * 2 ∧ q1.old = 1 ∧
      q1.new = queueSize q + 1 ∧
      (∀ i, i < queueSize q → (blockOf q1.jobs)[1 + i]? = (blockOf q.jobs)[livePos q i]?) ∧
      queueSize q1 = queueSize q ∧
      ∀ n, n ≤ queueSize q →
        drain n q1 = some ((contents q).take n) ∧ drain n q = some ((contents q).take n) := by
  have hrep := rep_contents q hwf
  obtain ⟨q1, hg, hr1, ha, ho, hn, _, hcells⟩ := grow_rep q (contents q) hrep hmem
  refine ⟨q1, hg, ha, ho, hn, hcells, ?_, ?_⟩
  · rw [← hr1.2.1, hrep.2.1]
  · intro n hle
    have hl : n ≤ (contents q).length := by rw [hrep.2.1]; exact hle
    exact ⟨drain_rep n q1 _ hr1 hl, drain_rep n q _ hrep hl⟩

/-- Witness of C2: a wrapped, half-filled queue of length 4 (live cells 3 and 1). -/
theorem queueGrow_preserves_witness :
    ∃ q1, queueGrow (⟨some [none, some 10, none, some 30], 4, 3, 2⟩ : Queue Nat) = some q1 ∧
      q1.arr_len = 4 * 2 ∧ q1.old = 1 ∧
      q1.new = queueSize (⟨some [none, some 10, none, some 30], 4, 3, 2⟩ : Queue Nat) + 1 ∧
      (∀ i, i < queueSize (⟨some [none, some 10, none, some 30], 4, 3, 2⟩ : Queue Nat) →
        (blockOf q1.jobs)[1 + i]? =
          [none, some 10, none, some 30][livePos
            (⟨some [none, some 10, none, some 30], 4, 3, 2⟩ : Queue Nat) i]?) ∧
      queueSize q1 = queueSize (⟨some [none, some 10, none, some 30], 4, 3, 2⟩ : Queue Nat) ∧
      ∀ n, n ≤ queueSize (⟨some [none, some 10, none, some 30], 4, 3, 2⟩ : Queue Nat) →
        drain n q1 = some ([some 30, some 10].take n) ∧
        drain n (⟨some [none, some 10, none, some 30], 4, 3, 2⟩ : Queue Nat)
          = some ([some 30, some 10].take n) :=
  queueGrow_preserves ⟨some [none, some 10, none, some 30], 4, 3, 2⟩
    ⟨⟨_, rfl, rfl⟩, by decide, by decide, by decide, by decide, by decide⟩ (by decide)

/-- C3. In every state reachable from a fresh queue by enqueues and non-empty
dequeues: `queueSize() == 0` iff `old == new`; the full test of `queueEnqueue`
is true iff `queueSize() == queueCurCapacity()`, where `queueCurCapacity()` is
`arr_len - 2`; `queueSize() <= queueCurCapacity()`; and `queueEnqueue` calls
`queueGrow` exactly when the queue holds `arr_len - 2` jobs. -/
theorem queue_empty_full {α : Type} (ops : List (Op α)) (q : Queue α)
    (h : ReachedBy ops q) :
    (queueSize q = 0 ↔ q.old = q.new) ∧
    (queueFull q = true ↔ queueSize q = queueCurCapacity q) ∧
    queueCurCapacity q = subSz q.arr_len 2 ∧
    queueSize q ≤ queueCurCapacity q ∧
    (enqueueGrows q = true ↔ queueSize q = subSz q.arr_len 2) := by
  rcases reachedBy_cases ops q h with ⟨_, hf⟩ | ⟨outs, l, hr, _, _, _, _⟩
  · rcases hf with hf | ⟨q0, hf⟩ <;> subst hf <;>
      simp [queueSize, queueFull, queueCurCapacity, enqueueGrows, queueInitialize, index,
        Queue.fresh, queueFree, subSz, addSz, SIZE_MOD, QUEUE_MIN_SIZE]
  · have hwf := hr.1
    obtain ⟨⟨b, hb, hbl⟩, ho1, ho2, hn1, hn2, hal⟩ := hwf
    have hsz := queueSize_eq q hr.1
    have hcap : subSz q.arr_len 2 = q.arr_len - 2 := subSz_small (by omega) hal
    have hidx := index_succ q q.new hal hn2
    have hfull : queueFull q = true ↔ queueSize q = q.arr_len - 2 := by
      unfold queueFull
      rw [decide_eq_true_iff, hidx, hsz]
      split_ifs <;> omega
    unfold enqueueGrows queueCurCapacity
    rw [queueInitialize_of_some q b hb, hcap]
    refine ⟨?_, hfull, rfl, ?_, hfull⟩
    · rw [hsz]; split_ifs <;> omega
    · rw [hsz]; split_ifs <;> omega

set_option maxRecDepth 100000 in
/-- Witness of C3: the state after one enqueue. -/
theorem queue_empty_full_witness :
    (queueSize (⟨some ((mallocJobs 128).set 1 (some 7)), 128, 1, 2⟩ : Queue Nat) = 0 ↔
      (1 : Nat) = 2) ∧
    (queueFull (⟨some ((mallocJobs 128).set 1 (some 7)), 128, 1, 2⟩ : Queue Nat) = true ↔
      queueSize (⟨some ((mallocJobs 128).set 1 (some 7)), 128, 1, 2⟩ : Queue Nat) =
        queueCurCapacity (⟨some ((mallocJobs 128).set 1 (some 7)), 128, 1, 2⟩ : Queue Nat)) ∧
    queueCurCapacity (⟨some ((mallocJobs 128).set 1 (some 7)), 128, 1, 2⟩ : Queue Nat) =
      subSz 128 2 ∧
    queueSize (⟨some ((mallocJobs 128).set 1 (some 7)), 128, 1, 2⟩ : Queue Nat) ≤
      queueCurCapacity (⟨some ((mallocJobs 128).set 1 (some 7)), 128, 1, 2⟩ : Queue Nat) ∧
    (enqueueGrows (⟨some ((mallocJobs 128).set 1 (some 7)), 128, 1, 2⟩ : Queue Nat) = true ↔
      queueSize (⟨some ((mallocJobs 128).set 1 (some 7)), 128, 1, 2⟩ : Queue Nat) =
        subSz 128 2) :=
  queue_empty_full [Op.enq 7] ⟨some ((mallocJobs 128).set 1 (some 7)), 128, 1, 2⟩
    ⟨Queue.fresh, [], Or.inl rfl, rfl, by decide, rfl⟩

/-- C10. In every state reachable after the first `queueEnqueue` by further
enqueues and non-empty dequeues: `arr_len = 128 * 2 ^ k` for some `k`, the
block has `arr_len` cells, `1 <= old <= arr_len - 1` and
`1 <= new <= arr_len - 1`; cell 0 still holds the indeterminate value `malloc`
left there (it was never written); `queuePeek` reads at `index(old) = old`;
and every live position lies in `[1, arr_len - 1]`. -/
theorem queue_index_invariant {α : Type} (job : α) (ops : List (Op α)) (q : Queue α)
    (h : ReachedBy (Op.enq job :: ops) q) :
    (∃ k, q.arr_len = 128 * 2 ^ k) ∧
    1 ≤ q.old ∧ q.old ≤ q.arr_len - 1 ∧ 1 ≤ q.new ∧ q.new ≤ q.arr_len - 1 ∧
    (∃ b, q.jobs = some b ∧ b.length = q.arr_len ∧ b[0]? = some none) ∧
    index q q.old = q.old ∧
    (∀ i, i < queueSize q → 1 ≤ livePos q i ∧ livePos q i ≤ q.arr_len - 1) := by
  rcases reachedBy_cases _ q h with ⟨hnil, _⟩ | ⟨outs, l, hr, hsh, _, _, _⟩
  · simp at hnil
  · have hwf := hr.1
    obtain ⟨⟨b, hb, hbl⟩, ho1, ho2, hn1, hn2, hal⟩ := hwf
    obtain ⟨hk, hz⟩ := hsh
    refine ⟨hk, ho1, by omega, hn1, by omega, ⟨b, hb, hbl, ?_⟩, ?_, ?_⟩
    · rw [hb] at hz; exact hz
    · unfold index
      rw [if_neg (by omega), if_neg (by omega)]
    · intro i hi
      rw [livePos_eq q hr.1 i (by omega)]
      have := posCF_bounds q hr.1 i (by omega)
      omega

set_option maxRecDepth 100000 in
/-- Witness of C10: the state after one enqueue. -/
theorem queue_index_invariant_witness :
    (∃ k, (128 : Nat) = 128 * 2 ^ k) ∧
    1 ≤ 1 ∧ 1 ≤ 128 - 1 ∧ 1 ≤ 2 ∧ 2 ≤ 128 - 1 ∧
    (∃ b, some ((mallocJobs 128).set 1 (some 7)) = some b ∧ b.length = 128 ∧
      b[0]? = some (none : Option Nat)) ∧
    index (⟨some ((mallocJobs 128).set 1 (some 7)), 128, 1, 2⟩ : Queue Nat) 1 = 1 ∧
    (∀ i, i < queueSize (⟨some ((mallocJobs 128).set 1 (some 7)), 128, 1, 2⟩ : Queue Nat) →
      1 ≤ livePos (⟨some ((mallocJobs 128).set 1 (some 7)), 128, 1, 2⟩ : Queue Nat) i ∧
      livePos (⟨some ((mallocJobs 128).set 1 (some 7)), 128, 1, 2⟩ : Queue Nat) i ≤ 128 - 1) :=
  queue_index_invariant 7 [] ⟨some ((mallocJobs 128).set 1 (some 7)), 128, 1, 2⟩
    ⟨Queue.fresh, [], Or.inl rfl, rfl, by decide, rfl⟩

/-! ## Lemmas on `constructEnvval` -/

theorem joined_nil : joined [] = [] := rfl

theorem joined_cons (v : Nat) (rest : List Nat) :
    joined (v :: rest) = (if rest = [] then fmtU v else fmtU v ++ [',']) ++ joined rest := by
  cases rest with
  | nil => simp [joined, List.intercalate, List.intersperse]
  | cons w r => simp [joined, List.intercalate, List.intersperse]

theorem snprintf_fits (buf : List Char) (offset space : Nat) (text : List Char)
    (hs : text.length < space) (hb : offset + text.length + 1 ≤ buf.length) :
    snprintf buf offset space text =
      (some (buf.take offset ++ text ++ NUL :: buf.drop (offset + text.length + 1)),
        text.length) := by
  unfold snprintf writeAt
  have ht : text.take (space - 1) = text := List.take_of_length_le (by omega)
  rw [if_neg (by omega), ht]
  simp only [List.length_append, List.length_singleton]
  rw [if_pos (by omega)]
  simp [Nat.add_assoc]

theorem envvalLoop_fits (slotc : Nat) (slotv : List Nat) (buflen : Nat)
    (hc : slotc = slotv.length) (hb : buflen < SIZE_MOD) :
    ∀ (n s offset : Nat) (buf : List Char), s + n = slotc → buf.length = buflen →
      offset + (joined (slotv.drop s)).length < buflen →
      ∃ buf1, envvalLoop slotc slotv buflen n s offset buf = EnvvalResult.ret 0 buf1 ∧
        buf1.length = buflen ∧
        (n = 0 → buf1 = buf) ∧
        (0 < n → ∃ tail, buf1 = buf.take offset ++ joined (slotv.drop s) ++ NUL :: tail) := by
  intro n
  induction n with
  | zero =>
    intro s offset buf _ hl _
    exact ⟨buf, rfl, hl, fun _ => rfl, fun h => absurd h (by omega)⟩
  | succ n ih =>
    intro s offset buf hs hl hfit
    have hslt : s < slotv.length := by omega
    obtain ⟨v, hv⟩ : ∃ v, slotv[s]? = some v :=
      ⟨slotv.get ⟨s, hslt⟩, List.getElem?_eq_getElem hslt⟩
    have hdrop : slotv.drop s = v :: slotv.drop (s + 1) := by
      rw [List.drop_eq_getElem_cons hslt]
      congr 1
      have := List.getElem?_eq_getElem hslt
      rw [hv] at this
      exact (Option.some.inj this).symm
    have hlast : s = slotc - 1 ↔ slotv.drop (s + 1) = [] := by
      rw [List.drop_eq_nil_iff]
      omega
    have htext : (if s = slotc - 1 then fmtU v else fmtU v ++ [',']) =
        (if slotv.drop (s + 1) = [] then fmtU v else fmtU v ++ [',']) := by
      by_cases h : s = slotc - 1
      · rw [if_pos h, if_pos (hlast.mp h)]
      · rw [if_neg h, if_neg (fun h1 => h (hlast.mpr h1))]
    obtain ⟨text, htx, hj⟩ : ∃ text,
        (if s = slotc - 1 then fmtU v else fmtU v ++ [',']) = text ∧
        joined (slotv.drop s) = text ++ joined (slotv.drop (s + 1)) := by
      refine ⟨_, rfl, ?_⟩
      rw [htext, hdrop]
      exact joined_cons v (slotv.drop (s + 1))
    rw [hj, List.length_append] at hfit
    have hspace : subSz buflen offset = buflen - offset := subSz_small (by omega) hb
    have hsn := snprintf_fits buf offset (buflen - offset) text (by omega) (by omega)
    have hadd : addSz offset text.length = offset + text.length :=
      addSz_small (by omega)
    have hl1 : (buf.take offset ++ text ++ NUL :: buf.drop (offset + text.length + 1)).length
        = buflen := by
      simp only [List.length_append, List.length_cons, List.length_take, List.length_drop]
      omega
    obtain ⟨buf1, hrun, hlen1, hzero, hpos⟩ :=
      ih (s + 1) (offset + text.length)
        (buf.take offset ++ text ++ NUL :: buf.drop (offset + text.length + 1))
        (by omega) hl1 (by omega)
    have htake : (buf.take offset ++ text ++ NUL :: buf.drop (offset + text.length + 1)).take
        (offset + text.length) = buf.take offset ++ text := by
      apply List.take_left'
      simp only [List.length_append, List.length_take]
      omega
    refine ⟨buf1, ?_, hlen1, fun h => absurd h (by omega), fun _ => ?_⟩
    · rw [envvalLoop]
      simp only [hv, hspace, htx, hsn, hadd]
      rw [if_neg (by omega)]
      exact hrun
    · rw [hj]
      rcases Nat.eq_zero_or_pos n with hn | hn
      · have hnil : slotv.drop (s + 1) = [] := by
          rw [List.drop_eq_nil_iff]
          omega
        rw [hzero hn, hnil, joined_nil, List.append_nil]
        exact ⟨_, rfl⟩
      · obtain ⟨tail, ht⟩ := hpos hn
        rw [htake] at ht
        exact ⟨tail, by rw [ht, List.append_assoc (buf.take offset)]⟩

theorem digitChar_ne_NUL (d : Nat) : Nat.digitChar d ≠ NUL := by
  by_cases h : d < 16
  · interval_cases d <;> decide
  · obtain ⟨e, rfl⟩ : ∃ e, d = e + 16 := ⟨d - 16, by omega⟩
    have hstar : Nat.digitChar (e + 16) = '*' := by
      simp [Nat.digitChar]
    rw [hstar]
    decide

theorem toDigitsCore_ne_NUL : ∀ (fuel n : Nat) (ds : List Char), (∀ c ∈ ds, c ≠ NUL) →
    ∀ c ∈ Nat.toDigitsCore 10 fuel n ds, c ≠ NUL := by
  intro fuel
  induction fuel with
  | zero =>
    intro n ds h c hc
    simp only [Nat.toDigitsCore] at hc
    exact h c hc
  | succ fuel ih =>
    intro n ds h c hc
    simp only [Nat.toDigitsCore] at hc
    split at hc
    · rcases List.mem_cons.mp hc with h1 | h1
      · rw [h1]; exact digitChar_ne_NUL _
      · exact h c h1
    · refine ih _ _ ?_ c hc
      intro c1 hc1
      rcases List.mem_cons.mp hc1 with h1 | h1
      · rw [h1]; exact digitChar_ne_NUL _
      · exact h c1 h1

theorem fmtU_ne_NUL (v : Nat) : ∀ c ∈ fmtU v, c ≠ NUL := by
  unfold fmtU Nat.toDigits
  exact toDigitsCore_ne_NUL _ _ [] (by simp)

theorem joined_ne_NUL : ∀ (slotv : List Nat), ∀ c ∈ joined slotv, c ≠ NUL := by
  intro slotv
  induction slotv with
  | nil => intro c hc; simp [joined_nil] at hc
  | cons v rest ih =>
    intro c hc
    rw [joined_cons] at hc
    rcases List.mem_append.mp hc with h1 | h1
    · split at h1
      · exact fmtU_ne_NUL v c h1
      · rcases List.mem_append.mp h1 with h2 | h2
        · exact fmtU_ne_NUL v c h2
        · simp only [List.mem_singleton] at h2
          rw [h2]; decide
    · exact ih c h1

/-- C8. For a non-empty slot array of length `slotc` and a buffer of `buflen`
bytes with `buflen` strictly greater than the length of the joined text,
`constructEnvval` returns 0 and the buffer then starts with the decimal
representations of `slotv[0]`, ..., `slotv[slotc-1]` in that order, separated
by single commas, with no leading or trailing separator, followed by a NUL;
the text itself holds no NUL, so it is the C string left in `buf`. -/
theorem constructEnvval_fits (slotv : List Nat) (buflen : Nat) (buf : List Char)
    (hne : slotv ≠ []) (hlen : buf.length = buflen) (hsz : buflen < SIZE_MOD)
    (hfit : (joined slotv).length < buflen) :
    ∃ tail, constructEnvval slotv.length slotv buflen buf
        = EnvvalResult.ret 0 (joined slotv ++ NUL :: tail) ∧
      (joined slotv ++ NUL :: tail).length = buflen ∧
      joined slotv = List.intercalate [','] (slotv.map (Nat.toDigits 10)) ∧
      ∀ c ∈ joined slotv, c ≠ NUL := by
  have hpos : 0 < slotv.length := List.length_pos.mpr hne
  obtain ⟨buf1, hrun, hl1, _, htail⟩ :=
    envvalLoop_fits slotv.length slotv buflen rfl hsz slotv.length 0 0 buf (by omega) hlen
      (by simpa using hfit)
  obtain ⟨tail, ht⟩ := htail hpos
  simp only [List.take_zero, List.nil_append, List.drop_zero] at ht
  refine ⟨tail, ?_, by rw [← ht]; exact hl1, rfl, joined_ne_NUL slotv⟩
  unfold constructEnvval
  rw [if_neg (by omega), hrun, ht]

/-- Witness of C8: slots 3, 10 and 257 in a buffer of 9 bytes, the least that fits. -/
theorem constructEnvval_fits_witness :
    ∃ tail, constructEnvval 3 [3, 10, 257] 9 (List.replicate 9 'x')
        = EnvvalResult.ret 0 (joined [3, 10, 257] ++ NUL :: tail) ∧
      (joined [3, 10, 257] ++ NUL :: tail).length = 9 ∧
      joined [3, 10, 257] = List.intercalate [','] ([3, 10, 257].map (Nat.toDigits 10)) ∧
      ∀ c ∈ joined [3, 10, 257], c ≠ NUL :=
  constructEnvval_fits [3, 10, 257] 9 (List.replicate 9 'x') (by decide) (by decide)
    (by decide) (by decide)

/-- C9, the code at a failing input. With slots 3, 10 and 257 and a buffer of
7 bytes the text `3,10,257` and its NUL need 9 bytes, yet `constructEnvval`
returns 0, leaving the truncated text `3,10,2`: the last `snprintf` returns
3, which is not equal to the 2 bytes of space left. With a buffer of 4 bytes
the second `snprintf` returns 3 where 2 bytes are left, `offset` becomes 5,
and the third iteration computes `buflen - offset` with `offset > buflen`: the
space wraps to `2 ^ 64 - 1` and `snprintf` stores outside the buffer. -/
theorem constructEnvval_exhaustion_unreported :
    constructEnvval 3 [3, 10, 257] 7 (List.replicate 7 'x')
      = EnvvalResult.ret 0 ['3', ',', '1', '0', ',', '2', NUL] ∧
    9 = (joined [3, 10, 257]).length + 1 ∧
    constructEnvval 3 [3, 10, 257] 4 (List.replicate 4 'x') = EnvvalResult.fault ∧
    subSz 4 (addSz (addSz 0 2) 3) = SIZE_MOD - 1 := by
  decide

/-! ## Lemmas on the slot allocator -/

theorem markAll_cons (v : Bool) (i : Nat) (ids : List Nat) (tbl : List Bool) :
    markAll v (i :: ids) tbl = markAll v ids (tbl.set i v) := rfl

theorem getElem?_markAll (v : Bool) : ∀ (ids : List Nat) (tbl : List Bool) (j : Nat),
    (markAll v ids tbl)[j]? = if j ∈ ids then (tbl[j]?).map (fun _ => v) else tbl[j]? := by
  intro ids
  induction ids with
  | nil => intro tbl j; simp [markAll]
  | cons i ids ih =>
    intro tbl j
    rw [markAll_cons, ih, List.getElem?_set]
    by_cases hij : i = j
    · subst hij
      by_cases hlt : i < tbl.length
      · simp [hlt, List.getElem?_eq_getElem hlt]
      · have hnone : tbl[i]? = none := List.getElem?_eq_none (by omega)
        simp [hlt, hnone]
    · have hji : ¬ j = i := fun h => hij h.symm
      simp [hij, hji]

theorem markAll_undo (ids : List Nat) (tbl : List Bool)
    (h : ∀ i ∈ ids, tbl[i]? = some false) :
    markAll false ids (markAll true ids tbl) = tbl := by
  apply List.ext_getElem?
  intro j
  rw [getElem?_markAll, getElem?_markAll]
  by_cases hj : j ∈ ids
  · simp [hj, h j hj]
  · simp [hj]

theorem pickFree_free : ∀ (l : List Bool) (base count : Nat), ∀ i ∈ pickFree l base count,
    ∃ k, i = base + k ∧ l[k]? = some false := by
  intro l
  induction l with
  | nil => intro base count i hi; simp [pickFree] at hi
  | cons b rest ih =>
    intro base count i hi
    cases count with
    | zero => simp [pickFree] at hi
    | succ count =>
      cases b with
      | true =>
        simp only [pickFree] at hi
        obtain ⟨k, hk, hf⟩ := ih (base + 1) (count + 1) i hi
        exact ⟨k + 1, by omega, by simpa using hf⟩
      | false =>
        simp only [pickFree, List.mem_cons] at hi
        rcases hi with hi | hi
        · exact ⟨0, by omega, by simp⟩
        · obtain ⟨k, hk, hf⟩ := ih (base + 1) count i hi
          exact ⟨k + 1, by omega, by simpa using hf⟩

theorem pickFree_length : ∀ (l : List Bool) (base count : Nat),
    (pickFree l base count).length ≤ count := by
  intro l
  induction l with
  | nil => intro base count; simp [pickFree]
  | cons b rest ih =>
    intro base count
    cases count with
    | zero => simp [pickFree]
    | succ count =>
      cases b with
      | true => simpa [pickFree] using ih (base + 1) (count + 1)
      | false => simpa [pickFree] using ih (base + 1) count

theorem specSlots_laws : SlotsLaws specSlots := by
  refine ⟨?_, ?_⟩
  · intro st count hfail
    show SlotTable.available (SlotTable.reserveSet st count).2.2 = SlotTable.available st
    have hf : (SlotTable.reserveSet st count).1 ≠ 0 := hfail
    unfold SlotTable.reserveSet at hf ⊢
    split_ifs at hf ⊢ with h
    · rfl
    · exact absurd rfl hf
  · intro st count hok
    show SlotTable.available (SlotTable.unreserveSet (SlotTable.reserveSet st count).2.2 count
      (SlotTable.reserveSet st count).2.1) = SlotTable.available st
    have hf : (SlotTable.reserveSet st count).1 = 0 := hok
    unfold SlotTable.reserveSet at hf ⊢
    split_ifs at hf ⊢ with h
    have htake : (pickFree st.reserved 0 count).take count = pickFree st.reserved 0 count :=
      List.take_of_length_le (pickFree_length _ _ _)
    have hfree : ∀ i ∈ pickFree st.reserved 0 count, st.reserved[i]? = some false := by
      intro i hi
      obtain ⟨k, hk, hk2⟩ := pickFree_free _ _ _ i hi
      have : i = k := by omega
      rw [this]; exact hk2
    simp only [SlotTable.unreserveSet, SlotTable.available, htake,
      markAll_undo _ _ hfree]

/-! ## Lemmas on `runJob` and `runJobs` -/

theorem listNext_size (jl rest : JobList) (job : Job) (h : listNext jl = some (job, rest)) :
    listSize jl = listSize rest + 1 := by
  unfold listNext at h
  unfold listSize
  cases hp : jl.priority with
  | cons j r =>
    rw [hp] at h
    simp only [Option.some.injEq, Prod.mk.injEq] at h
    rw [← h.2]
    simp; omega
  | nil =>
    rw [hp] at h
    cases hn : jl.normal with
    | cons j r =>
      rw [hn] at h
      simp only [Option.some.injEq, Prod.mk.injEq] at h
      rw [← h.2]
      simp
    | nil =>
      rw [hn] at h
      simp at h

theorem runJobs_requeue_eq {σ : Type} (api : SlotsApi σ) (srv : Server) (exts : Nat → Ext)
    (w : World σ) (job : Job) (rest : JobList)
    (hnext : listNext w.list = some (job, rest)) (hassert : srv.numSlots ≤ job.slots)
    (hbusy : api.slotsAvailible w.slots < job.slots) :
    runJobs api srv exts w = (Outcome.ret 0, { w with list := listAdd rest job true }) := by
  unfold runJobs
  rw [runJobsLoop]
  simp only [hnext]
  rw [if_neg (by simpa using hassert), if_pos hbusy]

theorem runJob_cases {σ : Type} (api : SlotsApi σ) (st : σ) (job : Job) (ext : Ext)
    (fail : Nat) (slotBuff : List Nat) (st1 : σ)
    (hres : api.slotsReserveSet st job.slots = (fail, slotBuff, st1)) :
    (api.slotsAvailible st < job.slots ∧
      runJob api st job ext = ⟨Outcome.abort, st, []⟩) ∨
    (fail ≠ 0 ∧ runJob api st job ext = ⟨Outcome.ret 1, st1, [SlotCall.reserve job.slots]⟩) ∨
    (fail = 0 ∧ ((runJob api st job ext).outcome = Outcome.abort ∨
      (runJob api st job ext).outcome = Outcome.fault ∨
      (runJob api st job ext).outcome = Outcome.child)) ∨
    (fail = 0 ∧
      (∃ code buf, constructEnvval job.slots slotBuff MAX_ENVAL_LEN
          (List.replicate MAX_ENVAL_LEN NUL) = EnvvalResult.ret code buf ∧
        (code ≠ 0 ∨ ext.setenvFail = true ∨ ext.forkPid = -1)) ∧
      runJob api st job ext = ⟨Outcome.ret 1, api.slotsUnreserveSet st1 job.slots slotBuff,
        [SlotCall.reserve job.slots, SlotCall.unreserve job.slots slotBuff]⟩) ∨
    (fail = 0 ∧ ext.forkPid ≠ 0 ∧ ext.forkPid ≠ -1 ∧
      runJob api st job ext =
        ⟨Outcome.ret 0, api.slotsRegisterSet st1 ext.forkPid job.slots slotBuff,
          [SlotCall.reserve job.slots, SlotCall.register ext.forkPid job.slots slotBuff]⟩) := by
  unfold runJob
  simp only [hres]
  by_cases h1 : api.slotsAvailible st < job.slots
  · exact Or.inl ⟨h1, by rw [if_pos h1]⟩
  · rw [if_neg h1]
    by_cases h2 : fail ≠ 0
    · exact Or.inr (Or.inl ⟨h2, by rw [if_pos h2]⟩)
    · rw [if_neg h2]
      have h2e : fail = 0 := by omega
      cases hce : constructEnvval job.slots slotBuff MAX_ENVAL_LEN
          (List.replicate MAX_ENVAL_LEN NUL) with
      | abort => exact Or.inr (Or.inr (Or.inl ⟨h2e, Or.inl rfl⟩))
      | fault => exact Or.inr (Or.inr (Or.inl ⟨h2e, Or.inr (Or.inl rfl)⟩))
      | ret code buf =>
        simp only
        by_cases h3 : code ≠ 0
        · rw [if_pos h3]
          exact Or.inr (Or.inr (Or.inr (Or.inl ⟨h2e, ⟨code, buf, rfl, Or.inl h3⟩, rfl⟩)))
        · rw [if_neg h3]
          by_cases h4 : ext.setenvFail = true
          · rw [if_pos h4]
            exact Or.inr (Or.inr (Or.inr (Or.inl ⟨h2e, ⟨code, buf, rfl, Or.inr (Or.inl h4)⟩, rfl⟩)))
          · rw [if_neg h4]
            by_cases h5 : ext.forkPid = -1
            · rw [if_pos h5]
              exact Or.inr (Or.inr (Or.inr (Or.inl
                ⟨h2e, ⟨code, buf, rfl, Or.inr (Or.inr h5)⟩, rfl⟩)))
            · rw [if_neg h5]
              by_cases h6 : ext.forkPid ≠ 0
              · rw [if_pos h6]
                exact Or.inr (Or.inr (Or.inr (Or.inr ⟨h2e, h6, h5, rfl⟩)))
              · rw [if_neg h6]
                exact Or.inr (Or.inr (Or.inl ⟨h2e, Or.inr (Or.inr rfl)⟩))

theorem runJob_fail_returns {σ : Type} (api : SlotsApi σ) (st : σ) (job : Job) (ext : Ext)
    (havail : ¬ api.slotsAvailible st < job.slots)
    (hok : (api.slotsReserveSet st job.slots).1 = 0) (code : Nat) (buf : List Char)
    (hce : constructEnvval job.slots (api.slotsReserveSet st job.slots).2.1 MAX_ENVAL_LEN
      (List.replicate MAX_ENVAL_LEN NUL) = EnvvalResult.ret code buf)
    (hw : code ≠ 0 ∨ ext.setenvFail = true ∨ ext.forkPid = -1) :
    runJob api st job ext =
      ⟨Outcome.ret 1,
        api.slotsUnreserveSet (api.slotsReserveSet st job.slots).2.2 job.slots
          (api.slotsReserveSet st job.slots).2.1,
        [SlotCall.reserve job.slots,
          SlotCall.unreserve job.slots (api.slotsReserveSet st job.slots).2.1]⟩ := by
  rcases hres : api.slotsReserveSet st job.slots with ⟨fail, slotBuff, st1⟩
  rw [hres] at hok hce
  simp only at hok hce ⊢
  unfold runJob
  simp only [hres]
  rw [if_neg havail, if_neg (by omega), hce]
  simp only
  rcases hw with hw | hw | hw
  · rw [if_pos hw]
  · by_cases hcz : code ≠ 0
    · rw [if_pos hcz]
    · rw [if_neg hcz, if_pos hw]
  · by_cases hcz : code ≠ 0
    · rw [if_pos hcz]
    · by_cases hse : ext.setenvFail = true
      · rw [if_neg hcz, if_pos hse]
      · rw [if_neg hcz, if_neg hse, if_pos hw]

/-! ## The claims on `runJob` and `runJobs` -/

/-- C7. `runJob` never leaks reserved slots, for every allocator that keeps
the spec's promises (`SlotsLaws`). Whenever `runJob` returns nonzero the free
count equals its value before the call, and either `slotsReserveSet` itself
failed and no other allocator call was made, or the reservation succeeded and
`slotsUnreserveSet` was called exactly once, with the reserved count and set,
and `slotsRegisterSet` never. After a successful reservation, a failure of
`constructEnvval`, of `setenv` or of `fork` makes `runJob` return 1. When
`runJob` returns 0 (in the parent), `slotsRegisterSet` was called exactly once
with the child's pid and that same set, and `slotsUnreserveSet` was not
called. -/
theorem runJob_no_leak {σ : Type} (api : SlotsApi σ) (laws : SlotsLaws api) (st : σ)
    (job : Job) (ext : Ext) :
    (∀ code, (runJob api st job ext).outcome = Outcome.ret code → code ≠ 0 →
      api.slotsAvailible (runJob api st job ext).slots = api.slotsAvailible st ∧
      (((api.slotsReserveSet st job.slots).1 ≠ 0 ∧
          (runJob api st job ext).calls = [SlotCall.reserve job.slots]) ∨
        ((api.slotsReserveSet st job.slots).1 = 0 ∧
          (runJob api st job ext).calls =
            [SlotCall.reserve job.slots,
              SlotCall.unreserve job.slots (api.slotsReserveSet st job.slots).2.1]))) ∧
    (¬ api.slotsAvailible st < job.slots → (api.slotsReserveSet st job.slots).1 = 0 →
      ∀ code buf, constructEnvval job.slots (api.slotsReserveSet st job.slots).2.1
          MAX_ENVAL_LEN (List.replicate MAX_ENVAL_LEN NUL) = EnvvalResult.ret code buf →
        (code ≠ 0 ∨ ext.setenvFail = true ∨ ext.forkPid = -1) →
        (runJob api st job ext).outcome = Outcome.ret 1) ∧
    ((runJob api st job ext).outcome = Outcome.ret 0 →
      (api.slotsReserveSet st job.slots).1 = 0 ∧ ext.forkPid ≠ 0 ∧ ext.forkPid ≠ -1 ∧
      (runJob api st job ext).calls =
        [SlotCall.reserve job.slots,
          SlotCall.register ext.forkPid job.slots (api.slotsReserveSet st job.slots).2.1]) := by
  have hmid : ¬ api.slotsAvailible st < job.slots → (api.slotsReserveSet st job.slots).1 = 0 →
      ∀ code buf, constructEnvval job.slots (api.slotsReserveSet st job.slots).2.1
          MAX_ENVAL_LEN (List.replicate MAX_ENVAL_LEN NUL) = EnvvalResult.ret code buf →
        (code ≠ 0 ∨ ext.setenvFail = true ∨ ext.forkPid = -1) →
        (runJob api st job ext).outcome = Outcome.ret 1 := by
    intro havail hok code buf hce hw
    rw [runJob_fail_returns api st job ext havail hok code buf hce hw]
  refine ⟨?_, hmid, ?_⟩
  · rcases hres : api.slotsReserveSet st job.slots with ⟨fail, slotBuff, st1⟩
    have hl1 := laws.1 st job.slots
    have hl2 := laws.2 st job.slots
    rw [hres] at hl1 hl2
    simp only at hl1 hl2 ⊢
    rcases runJob_cases api st job ext fail slotBuff st1 hres with
      ⟨_, h⟩ | ⟨hf, h⟩ | ⟨_, h⟩ | ⟨hf, _, h⟩ | ⟨_, _, _, h⟩
    · rw [h]; intro code hc; simp at hc
    · rw [h]; exact fun code _ _ => ⟨hl1 hf, Or.inl ⟨hf, rfl⟩⟩
    · intro code hc
      rcases h with h | h | h <;> rw [h] at hc <;> simp at hc
    · rw [h]; exact fun code _ _ => ⟨hl2 hf, Or.inr ⟨hf, rfl⟩⟩
    · rw [h]
      intro code hc hne
      simp only [Outcome.ret.injEq] at hc
      exact absurd hc.symm hne
  · rcases hres : api.slotsReserveSet st job.slots with ⟨fail, slotBuff, st1⟩
    simp only
    rcases runJob_cases api st job ext fail slotBuff st1 hres with
      ⟨_, h⟩ | ⟨_, h⟩ | ⟨_, h⟩ | ⟨_, _, h⟩ | ⟨hf, hp0, hp1, h⟩
    · rw [h]; intro hc; simp at hc
    · rw [h]; intro hc; simp at hc
    · intro hc
      rcases h with h | h | h <;> rw [h] at hc <;> simp at hc
    · rw [h]; intro hc; simp at hc
    · rw [h]; exact fun _ => ⟨hf, hp0, hp1, rfl⟩

/-- Witness of C7: the spec's allocator with unit 0 busy, a one-slot job, and
a `fork` that fails. -/
theorem runJob_no_leak_witness :
    (∀ code, (runJob specSlots demoTable (demoJob "a" false 1) ⟨false, -1⟩).outcome
        = Outcome.ret code → code ≠ 0 →
      specSlots.slotsAvailible
          (runJob specSlots demoTable (demoJob "a" false 1) ⟨false, -1⟩).slots
        = specSlots.slotsAvailible demoTable ∧
      (((specSlots.slotsReserveSet demoTable (demoJob "a" false 1).slots).1 ≠ 0 ∧
          (runJob specSlots demoTable (demoJob "a" false 1) ⟨false, -1⟩).calls
            = [SlotCall.reserve (demoJob "a" false 1).slots]) ∨
        ((specSlots.slotsReserveSet demoTable (demoJob "a" false 1).slots).1 = 0 ∧
          (runJob specSlots demoTable (demoJob "a" false 1) ⟨false, -1⟩).calls =
            [SlotCall.reserve (demoJob "a" false 1).slots,
              SlotCall.unreserve (demoJob "a" false 1).slots
                (specSlots.slotsReserveSet demoTable (demoJob "a" false 1).slots).2.1]))) ∧
    (¬ specSlots.slotsAvailible demoTable < (demoJob "a" false 1).slots →
      (specSlots.slotsReserveSet demoTable (demoJob "a" false 1).slots).1 = 0 →
      ∀ code buf, constructEnvval (demoJob "a" false 1).slots
          (specSlots.slotsReserveSet demoTable (demoJob "a" false 1).slots).2.1
          MAX_ENVAL_LEN (List.replicate MAX_ENVAL_LEN NUL) = EnvvalResult.ret code buf →
        (code ≠ 0 ∨ (⟨false, -1⟩ : Ext).setenvFail = true ∨ (⟨false, -1⟩ : Ext).forkPid = -1) →
        (runJob specSlots demoTable (demoJob "a" false 1) ⟨false, -1⟩).outcome
          = Outcome.ret 1) ∧
    ((runJob specSlots demoTable (demoJob "a" false 1) ⟨false, -1⟩).outcome = Outcome.ret 0 →
      (specSlots.slotsReserveSet demoTable (demoJob "a" false 1).slots).1 = 0 ∧
      (⟨false, -1⟩ : Ext).forkPid ≠ 0 ∧ (⟨false, -1⟩ : Ext).forkPid ≠ -1 ∧
      (runJob specSlots demoTable (demoJob "a" false 1) ⟨false, -1⟩).calls =
        [SlotCall.reserve (demoJob "a" false 1).slots,
          SlotCall.register (⟨false, -1⟩ : Ext).forkPid (demoJob "a" false 1).slots
            (specSlots.slotsReserveSet demoTable (demoJob "a" false 1).slots).2.1]) :=
  runJob_no_leak specSlots specSlots_laws demoTable (demoJob "a" false 1) ⟨false, -1⟩

/-- The run of the C7 witness, evaluated: `fork` fails, `runJob` returns 1, unit 1
was reserved and given back, and the table is as before. -/
theorem runJob_demo_eval :
    runJob specSlots demoTable (demoJob "a" false 1) ⟨false, -1⟩ =
      ⟨Outcome.ret 1, demoTable, [SlotCall.reserve 1, SlotCall.unreserve 1 [1]]⟩ := by
  obtain ⟨tail, hce, _⟩ := constructEnvval_fits [1] MAX_ENVAL_LEN
    (List.replicate MAX_ENVAL_LEN NUL) (by decide) (by simp) (by decide) (by decide)
  rw [runJob_fail_returns specSlots demoTable (demoJob "a" false 1) ⟨false, -1⟩ (by decide)
    (by decide) 0 _ hce (Or.inr (Or.inr rfl))]
  have hback : specSlots.slotsUnreserveSet
      (specSlots.slotsReserveSet demoTable (demoJob "a" false 1).slots).2.2
      (demoJob "a" false 1).slots
      (specSlots.slotsReserveSet demoTable (demoJob "a" false 1).slots).2.1 = demoTable := by
    decide
  rw [hback]
  rfl

theorem runJob_outcome_ne_outOfFuel {σ : Type} (api : SlotsApi σ) (st : σ) (job : Job)
    (ext : Ext) : (runJob api st job ext).outcome ≠ Outcome.outOfFuel := by
  rcases hres : api.slotsReserveSet st job.slots with ⟨fail, slotBuff, st1⟩
  rcases runJob_cases api st job ext fail slotBuff st1 hres with
    ⟨_, h⟩ | ⟨_, h⟩ | ⟨_, h⟩ | ⟨_, _, h⟩ | ⟨_, _, _, h⟩
  · rw [h]; simp
  · rw [h]; simp
  · rcases h with h | h | h <;> rw [h] <;> simp
  · rw [h]; simp
  · rw [h]; simp

/-- The admission pass always ends: the iteration bound of `runJobs` is never
used up. -/
theorem runJobsLoop_terminates {σ : Type} (api : SlotsApi σ) (srv : Server)
    (exts : Nat → Ext) : ∀ (fuel : Nat) (w : World σ), listSize w.list < fuel →
    (runJobsLoop api srv exts fuel w).1 ≠ Outcome.outOfFuel := by
  intro fuel
  induction fuel with
  | zero => intro w h; omega
  | succ fuel ih =>
    intro w h
    rw [runJobsLoop]
    cases hn : listNext w.list with
    | none => simp
    | some p =>
      obtain ⟨job, rest⟩ := p
      have hsz := listNext_size w.list rest job hn
      simp only
      by_cases ha : ¬ srv.numSlots ≤ job.slots
      · rw [if_pos ha]; simp
      · rw [if_neg ha]
        by_cases hb : api.slotsAvailible w.slots < job.slots
        · rw [if_pos hb]; simp
        · rw [if_neg hb]
          have hne := runJob_outcome_ne_outOfFuel api w.slots job (exts w.spawned)
          generalize runJob api w.slots job (exts w.spawned) = r at hne ⊢
          cases ho : r.outcome with
          | ret code => exact ih _ (by simp only; omega)
          | abort => simp
          | child => simp
          | fault => simp
          | outOfFuel => exact absurd ho hne

theorem runJobs_assert_fails_eq {σ : Type} (api : SlotsApi σ) (srv : Server)
    (exts : Nat → Ext) (w : World σ) (job : Job) (rest : JobList)
    (hnext : listNext w.list = some (job, rest)) (hfail : ¬ srv.numSlots ≤ job.slots) :
    runJobs api srv exts w = (Outcome.abort, { w with list := rest }) := by
  unfold runJobs
  rw [runJobsLoop]
  simp only [hnext]
  rw [if_pos hfail]

/-- C4, as the code has it. When the job `listNext` returns needs more slots
than are available (`slotsAvailible() < job.slots`) and the pass does not abort
at its assertion on that job, `runJobs` re-adds the job with
`listAdd(job, true)` and returns: the job goes to the priority tier whatever
its own priority flag (to its tail), and the normal tier keeps its pending
jobs in order. When no other job is pending in the priority tier (always so
when the job came from the normal tier), the next `listNext` returns that
same job and leaves the pending jobs as they were before the pass took it. -/
theorem runJobs_requeue {σ : Type} (api : SlotsApi σ) (srv : Server) (exts : Nat → Ext)
    (w : World σ) (job : Job) (rest : JobList)
    (hnext : listNext w.list = some (job, rest))
    (hbusy : api.slotsAvailible w.slots < job.slots)
    (hnoabort : (runJobs api srv exts w).1 ≠ Outcome.abort) :
    (runJobs api srv exts w).1 = Outcome.ret 0 ∧
    (runJobs api srv exts w).2.list = listAdd rest job true ∧
    (runJobs api srv exts w).2.list.priority = rest.priority ++ [job] ∧
    (runJobs api srv exts w).2.list.normal = rest.normal ∧
    (w.list.priority = [] → rest.priority = []) ∧
    (rest.priority = [] → listNext (runJobs api srv exts w).2.list = some (job, rest)) := by
  have hassert : srv.numSlots ≤ job.slots := by
    by_contra hfail
    rw [runJobs_assert_fails_eq api srv exts w job rest hnext hfail] at hnoabort
    exact hnoabort rfl
  rw [runJobs_requeue_eq api srv exts w job rest hnext hassert hbusy]
  refine ⟨rfl, rfl, rfl, rfl, ?_, ?_⟩
  · intro hp
    unfold listNext at hnext
    rw [hp] at hnext
    cases hn : w.list.normal with
    | nil => rw [hn] at hnext; simp at hnext
    | cons j r =>
      rw [hn] at hnext
      simp only [Option.some.injEq, Prod.mk.injEq] at hnext
      rw [← hnext.2]
  · intro hp
    show listNext (listAdd rest job true) = some (job, rest)
    unfold listAdd listNext
    simp only [if_true, hp, List.nil_append]
    rw [← hp]

/-- Witness of C4 as amended: two units, one busy; a normal job needing both
is at the head of the normal tier, and the pass does not abort. -/
theorem runJobs_requeue_witness :
    (runJobs specSlots ⟨2⟩ demoExts
      (demoWorld ⟨[], [demoJob "a" false 2, demoJob "b" false 1]⟩ demoTable)).1
        = Outcome.ret 0 ∧
    (runJobs specSlots ⟨2⟩ demoExts
      (demoWorld ⟨[], [demoJob "a" false 2, demoJob "b" false 1]⟩ demoTable)).2.list
        = listAdd ⟨[], [demoJob "b" false 1]⟩ (demoJob "a" false 2) true ∧
    (runJobs specSlots ⟨2⟩ demoExts
      (demoWorld ⟨[], [demoJob "a" false 2, demoJob "b" false 1]⟩ demoTable)).2.list.priority
        = [] ++ [demoJob "a" false 2] ∧
    (runJobs specSlots ⟨2⟩ demoExts
      (demoWorld ⟨[], [demoJob "a" false 2, demoJob "b" false 1]⟩ demoTable)).2.list.normal
        = [demoJob "b" false 1] ∧
    (([] : List Job) = [] → ([] : List Job) = []) ∧
    (([] : List Job) = [] →
      listNext (runJobs specSlots ⟨2⟩ demoExts
        (demoWorld ⟨[], [demoJob "a" false 2, demoJob "b" false 1]⟩ demoTable)).2.list
        = some (demoJob "a" false 2, ⟨[], [demoJob "b" false 1]⟩)) :=
  runJobs_requeue specSlots ⟨2⟩ demoExts
    (demoWorld ⟨[], [demoJob "a" false 2, demoJob "b" false 1]⟩ demoTable)
    (demoJob "a" false 2) ⟨[], [demoJob "b" false 1]⟩ (by decide) (by decide) (by decide)

/-- Counterexample to C4 as stated. Two units, one busy; the head job needs
both, so it passes the assertion and cannot be admitted. (1) A normal job "a"
at the head of the normal tier is re-added with `listAdd(job, true)`: it ends
in the priority tier, not in its own. (2) A priority job "a" at the head of
the priority tier, with priority job "b" behind it: after the pass "a" stands
behind "b", and the next `listNext` returns "b", not "a". -/
theorem runJobs_requeue_counterexample :
    ((demoJob "a" false 2).priority = false ∧
      listNext (demoWorld ⟨[], [demoJob "a" false 2, demoJob "b" false 1]⟩ demoTable).list
        = some (demoJob "a" false 2, ⟨[], [demoJob "b" false 1]⟩) ∧
      specSlots.slotsAvailible demoTable < (demoJob "a" false 2).slots ∧
      (runJobs specSlots ⟨2⟩ demoExts
        (demoWorld ⟨[], [demoJob "a" false 2, demoJob "b" false 1]⟩ demoTable)).1
          = Outcome.ret 0 ∧
      (runJobs specSlots ⟨2⟩ demoExts
        (demoWorld ⟨[], [demoJob "a" false 2, demoJob "b" false 1]⟩ demoTable)).2.list
          = ⟨[demoJob "a" false 2], [demoJob "b" false 1]⟩) ∧
    (listNext (demoWorld ⟨[demoJob "a" true 2, demoJob "b" true 2], []⟩ demoTable).list
        = some (demoJob "a" true 2, ⟨[demoJob "b" true 2], []⟩) ∧
      specSlots.slotsAvailible demoTable < (demoJob "a" true 2).slots ∧
      (runJobs specSlots ⟨2⟩ demoExts
        (demoWorld ⟨[demoJob "a" true 2, demoJob "b" true 2], []⟩ demoTable)).2.list
          = ⟨[demoJob "b" true 2, demoJob "a" true 2], []⟩ ∧
      listNext (runJobs specSlots ⟨2⟩ demoExts
        (demoWorld ⟨[demoJob "a" true 2, demoJob "b" true 2], []⟩ demoTable)).2.list
          = some (demoJob "b" true 2, ⟨[demoJob "a" true 2], []⟩)) := by
  decide

/-- C5, the code at a failing input. The daemon has two slots, both free, and
the only pending job asks for one: the assertion `numSlots <= job.slots` of
`runJobs` fails and the daemon aborts. -/
theorem runJobs_assert_aborts :
    (1 ≤ (demoJob "a" false 1).slots ∧ (demoJob "a" false 1).slots ≤ (⟨2⟩ : Server).numSlots) ∧
    (runJobs specSlots ⟨2⟩ demoExts
      (demoWorld ⟨[], [demoJob "a" false 1]⟩ demoFreeTable)).1 = Outcome.abort := by
  decide

end Jormungandr
